import Mathlib

/-!
Shallow embedding of `src/pycktools/parser/code_parser.py` (class `CodeParser`).

The astroid syntax-tree adapter is modelled by the inductive types `Expr`,
`Target` and `Stmt` below, covering exactly the node kinds the parser
inspects.  Python `set` objects are modelled as duplicate-free lists with
`setAdd` (add-if-absent); Python `dict` objects as association lists with
`dictInsert` (update-in-place-or-append).

Python object identity matters for this program: `CodeParser._CLASS_INIT` and
`CodeParser._METHOD_INIT` are single dictionary objects created once at class
definition time, and the parser stores *references* to them.  We therefore
model the Python heap explicitly: class records and method records live in two
address-indexed association lists, and `self.classes` maps class names to
*addresses*.  `_CLASS_INIT` / `_METHOD_INIT` are the addresses held by those
two class attributes.

Raised exceptions (`TypeError` from subscripting an astroid node,
`AttributeError` from `target.name` on a non-Name target, `ValueError` from
`count_lloc`, `KeyError` from a missing dict key) are modelled with
`Except PyErr`; an exception propagates out of `extract_code_data`, so no
post-raise state is observable.
-/

namespace PyCK

/-- Python exceptions the parser can raise. -/
inductive PyErr where
  | typeError (msg : String)
  | attributeError (msg : String)
  | valueError (msg : String)
  | keyError (msg : String)
  deriving Repr, DecidableEq

/-- Python `set.add`: add the element when absent (order of first insertion kept). -/
def setAdd {α : Type} [DecidableEq α] (l : List α) (x : α) : List α :=
  if x ∈ l then l else l ++ [x]

/-- Python `d[k]` / `k in d` on an association list: the first binding of `k`. -/
def pyLookup {α β : Type} [DecidableEq α] (k : α) : List (α × β) → Option β
  | [] => none
  | p :: rest => if p.1 = k then some p.2 else pyLookup k rest

/-- Python `d[k] = v` on an association list: overwrite in place or append. -/
def dictInsert {α β : Type} [DecidableEq α] (l : List (α × β)) (k : α) (v : β) :
    List (α × β) :=
  if (pyLookup k l).isSome then
    l.map (fun p => if p.1 = k then (k, v) else p)
  else l ++ [(k, v)]

/-- astroid expression nodes the parser inspects: `Name`, `Const` (carrying its
`as_string` form), `Call` and `Attribute`.  Any other expression kind behaves
like `Const` in this parser (no isinstance branch matches), so these four
constructors cover the walk. -/
inductive Expr where
  | name (id : String)
  | const (reprStr : String)
  | call (func : Expr) (args : List Expr)
  | attribute (attrname : String) (expr : Expr)
  deriving Repr

/-- astroid assignment targets: `AssignName` (has `.name`), `AssignAttr`
(`self.x = ...`; has `.attrname`, no `.name`) and `Tuple` (no `.name`).
`inferredPytype` on `AssignAttr` models `next(target.infer(), None).pytype()`:
`none` stands for `Uninferable`, `some s` for a pytype string such as
`".UsedClass"` or `"builtins.str"`. -/
inductive Target where
  | assignName (name : String)
  | assignAttr (attrname : String) (inferredPytype : Option String)
  | tupleTarget
  deriving Repr

/-- astroid statement nodes.  Simple-statement kinds carry only what the parser
reads; compound kinds carry the fields the LLOC counter walks (`body`,
`orelse`; for `Try` also the ignored `handlers` bodies and `finalbody`).
`funcDef` with `isAsync` covers both `FunctionDef` and its subclass
`AsyncFunctionDef`. -/
inductive Stmt where
  | assign (targets : List Target) (value : Expr)
  | augAssign
  | annAssign
  | exprStmt (value : Expr)
  | ret (value : Option Expr)
  | raiseS
  | delete
  | passS
  | breakS
  | continueS
  | globalS
  | nonlocalS
  | assertS
  | importS
  | importFrom
  | ifS (body : List Stmt) (orelse : List Stmt)
  | forS (body : List Stmt) (orelse : List Stmt)
  | whileS (body : List Stmt) (orelse : List Stmt)
  | tryS (body : List Stmt) (handlers : List (List Stmt)) (orelse : List Stmt)
      (finalbody : List Stmt)
  | withS (body : List Stmt)
  | funcDef (name : String) (args : List String) (body : List Stmt) (isAsync : Bool)
  | classDef (name : String) (bases : List Expr) (body : List Stmt)
  deriving Repr

/-- The isinstance tuple of simple statement kinds shared by `count_lloc` and
`count_lloc_in_compound_statement` (Assign, AugAssign, AnnAssign, Expr, Return,
Raise, Delete, Pass, Break, Continue, Global, Nonlocal, Assert, Import,
ImportFrom). -/
def simpleKind : Stmt → Bool
  | .assign _ _ | .augAssign | .annAssign | .exprStmt _ | .ret _ | .raiseS
  | .delete | .passS | .breakS | .continueS | .globalS | .nonlocalS
  | .assertS | .importS | .importFrom => true
  | _ => false

/-- The isinstance tuple of compound statement kinds (If, For, While, Try, With). -/
def compoundKind : Stmt → Bool
  | .ifS _ _ | .forS _ _ | .whileS _ _ | .tryS _ _ _ _ | .withS _ => true
  | _ => false

mutual
/-- The classification loop shared verbatim by `count_lloc` (over `node.body`)
and both loops of `count_lloc_in_compound_statement`: a listed simple statement
adds 1, a listed compound statement adds its recursive count, anything else
(e.g. a nested `FunctionDef` or `ClassDef`) adds 0. -/
def llocChildren : List Stmt → Nat
  | [] => 0
  | c :: rest =>
    (if simpleKind c then 1
     else if compoundKind c then count_lloc_in_compound_statement c else 0)
      + llocChildren rest

/-- `CodeParser.count_lloc_in_compound_statement`: 1 for the compound header,
plus the classification loop over `node.body`, plus the same loop over
`getattr(node, 'orelse', [])` (so `With`, which has no `orelse`, contributes
only header + body; `Try`'s `handlers` and `finalbody` are never walked). -/
def count_lloc_in_compound_statement : Stmt → Nat
  | .ifS body orelse => 1 + llocChildren body + llocChildren orelse
  | .forS body orelse => 1 + llocChildren body + llocChildren orelse
  | .whileS body orelse => 1 + llocChildren body + llocChildren orelse
  | .tryS body _ orelse _ => 1 + llocChildren body + llocChildren orelse
  | .withS body => 1 + llocChildren body + 0
  | _ => 1
end

/-- `CodeParser.count_lloc`: raises `ValueError` unless the node is a
`FunctionDef`/`AsyncFunctionDef`, otherwise runs the classification loop over
the function body. -/
def count_lloc : Stmt → Except PyErr Nat
  | .funcDef _ _ body _ => .ok (llocChildren body)
  | _ => .error (.valueError "Node must be a function or method definition")

mutual
/-- astroid `NodeNG.as_string` restricted to the expression kinds of `Expr`:
a `Name` prints its identifier, a `Const` its literal form, an `Attribute`
prints `receiver.attrname`, a `Call` prints `func(arg1, arg2, ...)`. -/
def Expr.as_string : Expr → String
  | .name id => id
  | .const reprStr => reprStr
  | .call func args => func.as_string ++ "(" ++ asStringArgs args ++ ")"
  | .attribute attrname e => e.as_string ++ "." ++ attrname

/-- Comma-separated `as_string` of call arguments. -/
def asStringArgs : List Expr → String
  | [] => ""
  | [e] => e.as_string
  | e :: rest => e.as_string ++ ", " ++ asStringArgs rest
end

/-- The dictionary `CodeParser._METHOD_INIT` points to. -/
structure MethodRec where
  accessed_attributes : List String
  called : List String
  lloc : Nat
  number_of_parameters : Nat
  deriving Repr, DecidableEq

/-- The dictionary `CodeParser._CLASS_INIT` points to.  `methods` maps a method
name to the *address* of a method record (the Python dict stores a reference). -/
structure ClassRec where
  accessed_attributes : List String
  called : List String
  methods : List (String × Nat)
  attributes : List (String × Option String)
  variables' : List String
  direct_children : Nat
  coupled_classes : List String
  deriving Repr, DecidableEq

def emptyMethodRec : MethodRec :=
  { accessed_attributes := [], called := [], lloc := 0, number_of_parameters := 0 }

def emptyClassRec : ClassRec :=
  { accessed_attributes := [], called := [], methods := [], attributes := [],
    variables' := [], direct_children := 0, coupled_classes := [] }

/-- The Python heap: the record dictionaries, indexed by address. -/
structure Heap where
  classH : List (Nat × ClassRec)
  methodH : List (Nat × MethodRec)
  deriving Repr, DecidableEq

/-- In-place update of the record stored at address `a` (no-op when absent). -/
def updAssoc {β : Type} (l : List (Nat × β)) (a : Nat) (f : β → β) :
    List (Nat × β) :=
  l.map (fun p => if p.1 = a then (p.1, f p.2) else p)

/-- The state of a `CodeParser` object together with the heap it points into.
`classInitAddr` / `methodInitAddr` are the references held by the class
attributes `_CLASS_INIT` / `_METHOD_INIT`; `classes` maps class names to
addresses, mirroring that `self.classes[class_name] = self._CLASS_INIT`
stores a reference, not a copy. -/
structure CodeParserState where
  classInitAddr : Nat
  methodInitAddr : Nat
  classes : List (String × Nat)
  inheritances : List (String × String)
  heap : Heap
  deriving Repr, DecidableEq

/-- State at first use of a fresh `CodeParser`: both shared template dicts
exist and are still empty (they are created once, at class-definition time). -/
def initState : CodeParserState :=
  { classInitAddr := 0, methodInitAddr := 1, classes := [], inheritances := [],
    heap := { classH := [(0, emptyClassRec)], methodH := [(1, emptyMethodRec)] } }

/-- The `dict` argument threaded through the extraction helpers: either a
reference to a method-record dictionary, or — as in `_extract_classes_data`
line 170, which passes `class_node` itself — a bare astroid node, which raises
`TypeError` as soon as it is subscripted. -/
inductive DictArg where
  | methodRec (addr : Nat)
  | astNode (node : Stmt)

/-- `d[field] = f(d[field])` on the `dict` argument: updates the method record
in place, or raises `TypeError` when the argument is an astroid node. -/
def methodDictSet (d : DictArg) (f : MethodRec → MethodRec)
    (st : CodeParserState) : Except PyErr CodeParserState :=
  match d with
  | .methodRec a =>
      .ok { st with heap :=
        { st.heap with methodH := updAssoc st.heap.methodH a f } }
  | .astNode _ => .error (.typeError "astroid node object is not subscriptable")

/-- `dict['called'].add(v)`. -/
def dictAddCalled (d : DictArg) (v : String) (st : CodeParserState) :
    Except PyErr CodeParserState :=
  methodDictSet d (fun r => { r with called := setAdd r.called v }) st

/-- `dict['accessed_attributes'].add(v)`. -/
def dictAddAccessed (d : DictArg) (v : String) (st : CodeParserState) :
    Except PyErr CodeParserState :=
  methodDictSet d (fun r => { r with accessed_attributes := setAdd r.accessed_attributes v }) st

/-- `self.classes[class_name][...] = ...` : look the class record up by name
(raising `KeyError` when absent, as Python would) and update it in place. -/
def classRecUpdate (class_name : String) (f : ClassRec → ClassRec)
    (st : CodeParserState) : Except PyErr CodeParserState :=
  match pyLookup class_name st.classes with
  | some a =>
      .ok { st with heap :=
        { st.heap with classH := updAssoc st.heap.classH a f } }
  | none => .error (.keyError class_name)

/-- Python `'.' in s`. -/
def hasDot (s : String) : Bool := s.data.contains '.'

/-- The characters before the first `.`. -/
def takeUntilDot : List Char → List Char
  | [] => []
  | c :: rest => if c = '.' then [] else c :: takeUntilDot rest

/-- Python `s.split('.')[0]`: the prefix before the first dot (the whole
string when there is none, the empty string for a leading dot). -/
def dotPrefix (s : String) : String := String.mk (takeUntilDot s.data)

/-- Python `s[1:] if s[0] == '.' else s`, as applied to a non-empty pytype
string (the `[]` case is unreachable for pytype strings). -/
def stripLeadingDot (s : String) : String :=
  match s.data with
  | c :: rest => if c = '.' then String.mk rest else s
  | [] => s

mutual
/-- `CodeParser._extract_used_attributes_recursive`: on a `Call`, first recurse
into the arguments, then add `node.func.as_string()` to `dict['called']`, and
when that text contains a dot whose prefix differs from the current class, add
the prefix to the class's `coupled_classes`; on an `Attribute`, record the
attribute — qualified with the receiver's text, which is also added to
`coupled_classes`, unless the receiver's text is literally `self`; any other
node kind is ignored. -/
def extract_used_attributes_recursive (node : Expr) (d : DictArg)
    (class_name : String) (st : CodeParserState) : Except PyErr CodeParserState :=
  match node with
  | .call func args => do
      let st1 ← extractUsedArgs args d class_name st
      let called_method := func.as_string
      let st2 ← dictAddCalled d called_method st1
      if hasDot called_method then
        let callee_class := dotPrefix called_method
        if callee_class ≠ class_name then
          classRecUpdate class_name
            (fun r => { r with coupled_classes := setAdd r.coupled_classes callee_class })
            st2
        else .ok st2
      else .ok st2
  | .attribute attrname e =>
      if e.as_string ≠ "self" then do
        let used_class := e.as_string
        let st1 ← classRecUpdate class_name
          (fun r => { r with coupled_classes := setAdd r.coupled_classes used_class }) st
        dictAddAccessed d (used_class ++ "." ++ attrname) st1
      else
        dictAddAccessed d attrname st
  | _ => .ok st

/-- The `for arg in node.args:` loop of the recursive walk. -/
def extractUsedArgs (args : List Expr) (d : DictArg) (class_name : String)
    (st : CodeParserState) : Except PyErr CodeParserState :=
  match args with
  | [] => .ok st
  | a :: rest => do
      let st1 ← extract_used_attributes_recursive a d class_name st
      extractUsedArgs rest d class_name st1
end

/-- `CodeParser._extract_self_attributes`, given the `targets` of the `Assign`
node: for every `AssignAttr` target, record `(attrname, inferred type)` into
the class's `attributes` (the inferred pytype has a leading `.` stripped;
`Uninferable` becomes `none`) and the bare attribute name into
`dict['accessed_attributes']`. -/
def extract_self_attributes (targets : List Target) (d : DictArg)
    (class_name : String) (st : CodeParserState) : Except PyErr CodeParserState :=
  match targets with
  | [] => .ok st
  | .assignAttr attrname inferred :: rest => do
      let attr_instance : Option String :=
        match inferred with
        | none => none
        | some s => some (stripLeadingDot s)
      let st1 ← classRecUpdate class_name
        (fun r => { r with attributes := setAdd r.attributes (attrname, attr_instance) }) st
      let st2 ← dictAddAccessed d attrname st1
      extract_self_attributes rest d class_name st2
  | _ :: rest => extract_self_attributes rest d class_name st

/-- The `for method_node in node.body:` loop of `_extract_methods`: an `Assign`
goes through `_extract_self_attributes` and then, like an `Expr` statement,
has its `.value` walked by `_extract_used_attributes_recursive`. -/
def extractMethodBody (body : List Stmt) (d : DictArg) (class_name : String)
    (st : CodeParserState) : Except PyErr CodeParserState :=
  match body with
  | [] => .ok st
  | method_node :: rest => do
      let st1 ←
        (match method_node with
         | .assign targets value => do
             let stA ← extract_self_attributes targets d class_name st
             extract_used_attributes_recursive value d class_name stA
         | .exprStmt value => extract_used_attributes_recursive value d class_name st
         | _ => .ok st)
      extractMethodBody rest d class_name st1

/-- `CodeParser._extract_methods`: `method_dict = self._METHOD_INIT` binds a
reference to the one shared method dictionary; `lloc` and
`number_of_parameters` (`len(node.args.args)`) are assigned into it, the body
loop populates it, and finally
`self.classes[class_name]['methods'][method_name] = method_dict` stores the
*reference*.  The call site guards with `isinstance(..., FunctionDef)`; on any
other node `count_lloc` would raise first, which the fallback branch mirrors. -/
def extract_methods (node : Stmt) (class_name : String) (st : CodeParserState) :
    Except PyErr CodeParserState :=
  match node with
  | .funcDef method_name args body isAsync => do
      let method_dict := DictArg.methodRec st.methodInitAddr
      let lloc ← count_lloc (.funcDef method_name args body isAsync)
      let st1 ← methodDictSet method_dict (fun r => { r with lloc := lloc }) st
      let st2 ← methodDictSet method_dict
        (fun r => { r with number_of_parameters := args.length }) st1
      let st3 ← extractMethodBody body method_dict class_name st2
      classRecUpdate class_name
        (fun r => { r with methods := dictInsert r.methods method_name st.methodInitAddr })
        st3
  | other => do
      let _ ← count_lloc other
      .ok st

/-- `CodeParser._extract_inheritance`, given `base.name`:
`self.inheritances[class_name] = base_class`, and when the base class is
already a key of `self.classes`, `self.classes[base_class]['direct_children']`
is incremented — on whatever record that key points to. -/
def extract_inheritance (base_name : String) (class_name : String)
    (st : CodeParserState) : CodeParserState :=
  let st1 := { st with inheritances := dictInsert st.inheritances class_name base_name }
  match pyLookup base_name st1.classes with
  | some a =>
      let f : ClassRec → ClassRec :=
        fun r => { r with direct_children := r.direct_children + 1 }
      { st1 with heap := { st1.heap with classH := updAssoc st1.heap.classH a f } }
  | none => st1

/-- The `for target in class_node.targets:` loop of `_extract_classes_data`:
`target.name` exists only on `AssignName` targets; an `AssignAttr` or `Tuple`
target raises `AttributeError`. -/
def classBodyVariables (targets : List Target) (class_name : String)
    (st : CodeParserState) : Except PyErr CodeParserState :=
  match targets with
  | [] => .ok st
  | .assignName attr_name :: rest => do
      let st1 ← classRecUpdate class_name
        (fun r => { r with variables' := setAdd r.variables' attr_name }) st
      classBodyVariables rest class_name st1
  | _ :: _ => .error (.attributeError "node object has no attribute name")

/-- The `for class_node in node.body:` loop of `_extract_classes_data`.  Note
that for `Expr`/`Assign` statements the source passes `class_node` itself —
an astroid node, not a dictionary — as the `dict` argument of the recursive
walk. -/
def extractClassBody (body : List Stmt) (class_name : String)
    (st : CodeParserState) : Except PyErr CodeParserState :=
  match body with
  | [] => .ok st
  | class_node :: rest => do
      let st1 ←
        (match class_node with
         | .funcDef a b c dflag =>
             extract_methods (.funcDef a b c dflag) class_name st
         | .assign targets value => do
             let stA ← classBodyVariables targets class_name st
             extract_used_attributes_recursive value
               (.astNode (.assign targets value)) class_name stA
         | .exprStmt value =>
             extract_used_attributes_recursive value
               (.astNode (.exprStmt value)) class_name st
         | _ => .ok st)
      extractClassBody rest class_name st1

/-- The `for base in node.bases:` loop: only `astroid.Name` bases are handed to
`_extract_inheritance`. -/
def extractBases (bases : List Expr) (class_name : String)
    (st : CodeParserState) : CodeParserState :=
  match bases with
  | [] => st
  | .name base_name :: rest =>
      extractBases rest class_name (extract_inheritance base_name class_name st)
  | _ :: rest => extractBases rest class_name st

/-- `CodeParser._extract_classes_data`: for every top-level `ClassDef`,
`self.classes[class_name] = self._CLASS_INIT` stores a reference to the shared
class dictionary, then the class body and the base list are processed. -/
def extract_classes_data (body : List Stmt) (st : CodeParserState) :
    Except PyErr CodeParserState :=
  match body with
  | [] => .ok st
  | node :: rest => do
      let st1 ←
        (match node with
         | .classDef class_name bases cbody => do
             let newClasses := dictInsert st.classes class_name st.classInitAddr
             let stA := { st with classes := newClasses }
             let stB ← extractClassBody cbody class_name stA
             .ok (extractBases bases class_name stB)
         | _ => .ok st)
      extract_classes_data rest st1

/-- `CodeParser.extract_code_data` on a fresh `CodeParser`: parsing is the
external adapter (the module body is the input here),
`_translate_attributes_to_classes` is `pass`, so the result is
`_extract_classes_data` run from the initial state. -/
def extract_code_data (module : List Stmt) : Except PyErr CodeParserState :=
  extract_classes_data module initState

/-- The class record a name denotes: follow the address stored in
`self.classes`. -/
def classRecOf (st : CodeParserState) (class_name : String) : Option ClassRec :=
  (pyLookup class_name st.classes).bind (fun a => pyLookup a st.heap.classH)

/-- The method record reached through `self.classes[cn]['methods'][mn]`. -/
def methodRecOf (st : CodeParserState) (class_name method_name : String) :
    Option MethodRec :=
  (classRecOf st class_name).bind (fun r =>
    (pyLookup method_name r.methods).bind (fun a => pyLookup a st.heap.methodH))

/-- `isinstance(node, (astroid.FunctionDef, astroid.AsyncFunctionDef))`. -/
def isFunctionDefNode : Stmt → Bool
  | .funcDef _ _ _ _ => true
  | _ => false

mutual
/-- Modelled from the spec's words (logical-line-count algorithm): the count of
a statement sequence is the sum of per-statement contributions. -/
def llocSpecList : List Stmt → Nat
  | [] => 0
  | s :: rest => llocSpecStmt s + llocSpecList rest

/-- Modelled from the spec's words: a listed simple statement contributes 1; a
compound statement contributes 1 for its header plus the recursively computed
count of its primary body plus the count of its else body; anything else
contributes 0. -/
def llocSpecStmt : Stmt → Nat
  | .ifS body orelse => 1 + llocSpecList body + llocSpecList orelse
  | .forS body orelse => 1 + llocSpecList body + llocSpecList orelse
  | .whileS body orelse => 1 + llocSpecList body + llocSpecList orelse
  | .tryS body _ orelse _ => 1 + llocSpecList body + llocSpecList orelse
  | .withS body => 1 + llocSpecList body
  | s => if simpleKind s then 1 else 0
end

mutual
/-- The call texts the recursive walk actually reaches inside an expression:
the walk descends only into `Call` arguments, and records the `func` text of
every `Call` it visits. -/
def reachCalled : Expr → List String
  | .call func args => reachCalledArgs args ++ [func.as_string]
  | _ => []

/-- `reachCalled` over an argument list. -/
def reachCalledArgs : List Expr → List String
  | [] => []
  | a :: rest => reachCalled a ++ reachCalledArgs rest
end

mutual
/-- The attribute keys the recursive walk actually records inside an
expression: the (possibly receiver-qualified) key of every `Attribute` node it
visits, descending only into `Call` arguments. -/
def reachAccessed : Expr → List String
  | .call _ args => reachAccessedArgs args
  | .attribute attrname e =>
      [if e.as_string = "self" then attrname else e.as_string ++ "." ++ attrname]
  | _ => []

/-- `reachAccessed` over an argument list. -/
def reachAccessedArgs : List Expr → List String
  | [] => []
  | a :: rest => reachAccessed a ++ reachAccessedArgs rest
end

/-- The `called` set of the shared method record (address 1), as a plain list. -/
def calledOf (st : CodeParserState) : List String :=
  ((pyLookup 1 st.heap.methodH).map MethodRec.called).getD []

/-- The `accessed_attributes` set of the shared method record. -/
def accessedOf (st : CodeParserState) : List String :=
  ((pyLookup 1 st.heap.methodH).map MethodRec.accessed_attributes).getD []

/-- The `methods` table of the shared class record (address 0). -/
def methodsOf (st : CodeParserState) : List (String × Nat) :=
  ((pyLookup 0 st.heap.classH).map ClassRec.methods).getD []

/-- Run-time invariant of the extraction: the two template references still
point at addresses 0 and 1, both records exist, every `self.classes` entry
points at the shared class record and every `methods` entry at the shared
method record. -/
def Inv (st : CodeParserState) : Prop :=
  st.classInitAddr = 0 ∧ st.methodInitAddr = 1 ∧
  (pyLookup 0 st.heap.classH).isSome = true ∧
  (pyLookup 1 st.heap.methodH).isSome = true ∧
  (∀ p ∈ st.classes, p.2 = 0) ∧
  (∀ q ∈ methodsOf st, q.2 = 1)

/-- What one extraction step preserves: registered class names stay registered
(pointing at the shared record), registered method names stay registered, and
the shared method record's `called` / `accessed_attributes` sets only grow. -/
def Evolves (st st' : CodeParserState) : Prop :=
  (∀ cn, pyLookup cn st.classes = some 0 → pyLookup cn st'.classes = some 0) ∧
  (∀ mn, pyLookup mn (methodsOf st) = some 1 → pyLookup mn (methodsOf st') = some 1) ∧
  (∀ s ∈ calledOf st, s ∈ calledOf st') ∧
  (∀ s ∈ accessedOf st, s ∈ accessedOf st')

/-- Module for C1/C5-style experiments: `class A` with one method `f`, then an
unrelated `class B` with an empty-equivalent body. -/
def moduleC1 : List Stmt :=
  [ .classDef "A" [] [ .funcDef "f" ["self"] [.passS] false ],
    .classDef "B" [] [ .passS ] ]

def resC1 : Except PyErr CodeParserState := extract_code_data moduleC1

/-- Module for C2: a syntactically valid class whose body contains the
expression statement `foo()`. -/
def moduleC2 : List Stmt :=
  [ .classDef "A" [] [ .exprStmt (.call (.name "foo") []) ] ]

/-- Module for C3, the round-trip scenario of the spec (the relevant part of
the source's `__main__` input): `UsedClass` with three instance attributes set
in `__init__`, and `MyClass` whose `__init__` sets `self.instance_variable`
and `self.UsedClassAttribute = UsedClass()` and whose `my_method` prints
`self.instance_variable` and `self.UsedClassAttribute.used_attr`. -/
def moduleC3 : List Stmt :=
  [ .classDef "UsedClass" []
      [ .funcDef "__init__" ["self"]
          [ .assign [.assignAttr "used_attr_1" (some "builtins.str")]
              (.const "I am here to be used"),
            .assign [.assignAttr "used_attr_2" (some "builtins.str")]
              (.const "I am here to be used"),
            .assign [.assignAttr "used_attr_3" (some ".UsedClass")]
              (.call (.name "UsedClass") []) ] false ],
    .classDef "MyClass" []
      [ .funcDef "__init__" ["self", "value"]
          [ .assign [.assignAttr "instance_variable" none] (.name "value"),
            .assign [.assignAttr "UsedClassAttribute" (some ".UsedClass")]
              (.call (.name "UsedClass") []) ] false,
        .funcDef "my_method" ["self"]
          [ .exprStmt (.call (.name "print")
              [.attribute "instance_variable" (.name "self")]),
            .exprStmt (.call (.name "print")
              [.attribute "used_attr" (.attribute "UsedClassAttribute" (.name "self"))]) ]
          false ] ]

def resC3 : Except PyErr CodeParserState := extract_code_data moduleC3

/-- Module for C4, the inheritance chain scenario:
`MySuperParent` ← `MyParent` ← `MyClass`, all in one module. -/
def moduleC4 : List Stmt :=
  [ .classDef "MySuperParent" [] [ .passS ],
    .classDef "MyParent" [.name "MySuperParent"] [ .passS ],
    .classDef "MyClass" [.name "MyParent"] [ .passS ] ]

def resC4 : Except PyErr CodeParserState := extract_code_data moduleC4

/-- Module for C5: the same class name `A` defined twice, first with method
`f`, then with method `g`. -/
def moduleC5 : List Stmt :=
  [ .classDef "A" [] [ .funcDef "f" ["self"] [.passS] false ],
    .classDef "A" [] [ .funcDef "g" ["self"] [.passS] false ] ]

def resC5 : Except PyErr CodeParserState := extract_code_data moduleC5

/-- Module for C6's counterexample: the only call expression of method `f`
sits inside a `return` statement (`return Foo.bar()`). -/
def moduleC6 : List Stmt :=
  [ .classDef "A" []
      [ .funcDef "f" ["self"]
          [ .ret (some (.call (.attribute "bar" (.name "Foo")) [])) ] false ] ]

def resC6 : Except PyErr CodeParserState := extract_code_data moduleC6

/-- The evaluation result of `extract_code_data moduleC3`, spelled out:
note `coupled_classes = ["self.UsedClassAttribute"]` and the qualified
accessed key `"self.UsedClassAttribute.used_attr"`. -/
def expC3 : CodeParserState :=
  { classInitAddr := 0, methodInitAddr := 1,
    classes := [("UsedClass", 0), ("MyClass", 0)],
    inheritances := [],
    heap :=
    { classH := [(0,
      { accessed_attributes := [],
        called := [],
        methods := [("__init__", 1), ("my_method", 1)],
        attributes := [("used_attr_1", some "builtins.str"), ("used_attr_2", some "builtins.str"), ("used_attr_3", some "UsedClass"), ("instance_variable", none), ("UsedClassAttribute", some "UsedClass")],
        variables' := [],
        direct_children := 0,
        coupled_classes := ["self.UsedClassAttribute"] })],
      methodH := [(1,
      { accessed_attributes := ["used_attr_1", "used_attr_2", "used_attr_3", "instance_variable", "UsedClassAttribute", "self.UsedClassAttribute.used_attr"],
        called := ["UsedClass", "print"],
        lloc := 2,
        number_of_parameters := 1 })] } }

/-- Method for C7's concrete scenario: a body consisting of one conditional
with two simple statements and an else branch with one simple statement. -/
def methodC7 : Stmt :=
  .funcDef "m" ["self"]
    [ .ifS [.exprStmt (.name "a"), .exprStmt (.name "b")]
        [.exprStmt (.name "c")] ] false

/-- A parser state in which class `A` has been registered, used to instantiate
the attribute-access rule at a concrete input. -/
def stWitness : CodeParserState := { initState with classes := [("A", 0)] }

/-- Adding one name to a class record's `coupled_classes` set. -/
def addCoupled (v : String) (r : ClassRec) : ClassRec :=
  { r with coupled_classes := setAdd r.coupled_classes v }

/-- Adding one key to a method record's `accessed_attributes` set. -/
def addAccessedKey (v : String) (r : MethodRec) : MethodRec :=
  { r with accessed_attributes := setAdd r.accessed_attributes v }

/-- Witness module for the amended walk claim: `class A` with method `f`
whose body is the single expression statement `Foo.bar()`. -/
def moduleC6w : List Stmt :=
  [ .classDef "A" []
      [ .funcDef "f" ["self"]
          [ .exprStmt (.call (.attribute "bar" (.name "Foo")) []) ] false ] ]

/-- The evaluation result of `extract_code_data moduleC6w`. -/
def expC6w : CodeParserState :=
  { classInitAddr := 0, methodInitAddr := 1, classes := [("A", 0)],
    inheritances := [],
    heap :=
    { classH := [(0,
      { accessed_attributes := [], called := [], methods := [("f", 1)],
        attributes := [], variables' := [], direct_children := 0,
        coupled_classes := ["Foo"] })],
      methodH := [(1,
      { accessed_attributes := [], called := ["Foo.bar"], lloc := 1,
        number_of_parameters := 1 })] } }

/-! ## Theorems -/

/-- The classification loop of the source agrees with the spec's recursive
logical-line formula on every statement sequence. -/
theorem llocChildren_eq_spec : (l : List Stmt) → llocChildren l = llocSpecList l
  | [] => rfl
  | s :: rest => by
    have hr := llocChildren_eq_spec rest
    cases s with
    | ifS b e =>
        have h1 := llocChildren_eq_spec b
        have h2 := llocChildren_eq_spec e
        simp [llocChildren, llocSpecList, llocSpecStmt, simpleKind, compoundKind,
          count_lloc_in_compound_statement, h1, h2, hr]
    | forS b e =>
        have h1 := llocChildren_eq_spec b
        have h2 := llocChildren_eq_spec e
        simp [llocChildren, llocSpecList, llocSpecStmt, simpleKind, compoundKind,
          count_lloc_in_compound_statement, h1, h2, hr]
    | whileS b e =>
        have h1 := llocChildren_eq_spec b
        have h2 := llocChildren_eq_spec e
        simp [llocChildren, llocSpecList, llocSpecStmt, simpleKind, compoundKind,
          count_lloc_in_compound_statement, h1, h2, hr]
    | tryS b hs e f =>
        have h1 := llocChildren_eq_spec b
        have h2 := llocChildren_eq_spec e
        simp [llocChildren, llocSpecList, llocSpecStmt, simpleKind, compoundKind,
          count_lloc_in_compound_statement, h1, h2, hr]
    | withS b =>
        have h1 := llocChildren_eq_spec b
        simp [llocChildren, llocSpecList, llocSpecStmt, simpleKind, compoundKind,
          count_lloc_in_compound_statement, h1, hr]
    | _ =>
        simp [llocChildren, llocSpecList, llocSpecStmt, simpleKind, compoundKind, hr]

/-- Splitting a statement sequence splits its logical-line count. -/
theorem llocChildren_append (xs ys : List Stmt) :
    llocChildren (xs ++ ys) = llocChildren xs + llocChildren ys := by
  induction xs with
  | nil => simp [llocChildren]
  | cons s rest ih => simp [llocChildren, ih]; omega

/-- A successful `pyLookup` comes from a list member. -/
theorem pyLookup_mem {α β : Type} [DecidableEq α] {l : List (α × β)} {k : α}
    {v : β} (h : pyLookup k l = some v) : (k, v) ∈ l := by
  induction l with
  | nil => simp [pyLookup] at h
  | cons p rest ih =>
    obtain ⟨a1, b1⟩ := p
    simp only [pyLookup] at h
    by_cases h1 : a1 = k
    · subst h1
      simp at h
      simp [h]
    · rw [if_neg (by simpa using h1)] at h
      exact List.mem_cons_of_mem _ (ih h)

/-- Lookup after an in-place update at address `a`. -/
theorem pyLookup_updAssoc {β : Type} (l : List (Nat × β)) (a b : Nat) (f : β → β) :
    pyLookup b (updAssoc l a f) =
      if b = a then (pyLookup b l).map f else pyLookup b l := by
  induction l with
  | nil => by_cases hb : b = a <;> simp [updAssoc, pyLookup, hb]
  | cons p rest ih =>
    obtain ⟨a1, b1⟩ := p
    simp only [updAssoc, List.map] at ih ⊢
    by_cases h1 : a1 = a
    · subst h1
      by_cases hb : b = a1
      · subst hb
        simp [pyLookup, ih]
      · have hb2 : ¬ a1 = b := fun he => hb he.symm
        simp [pyLookup, hb2, hb, ih]
    · by_cases hb : b = a1
      · subst hb
        have h2 : ¬ b = a := fun he => h1 he
        simp [pyLookup, h1, h2]
      · have hb2 : ¬ a1 = b := fun he => hb he.symm
        simp [pyLookup, h1, hb2, ih]

/-- In-place updates do not change which addresses are present. -/
theorem isSome_pyLookup_updAssoc {β : Type} (l : List (Nat × β)) (a b : Nat)
    (f : β → β) :
    (pyLookup b (updAssoc l a f)).isSome = (pyLookup b l).isSome := by
  rw [pyLookup_updAssoc]
  by_cases hb : b = a <;> simp [hb]

/-- The overwrite pass of `dictInsert` makes `k` map to `v` when `k` was
present. -/
theorem pyLookup_map_overwrite_self {α β : Type} [DecidableEq α]
    {l : List (α × β)} {k : α} (v : β) (hs : (pyLookup k l).isSome = true) :
    pyLookup k (l.map (fun p => if p.1 = k then (k, v) else p)) = some v := by
  induction l with
  | nil => simp [pyLookup] at hs
  | cons p rest ih =>
    obtain ⟨a1, b1⟩ := p
    simp only [pyLookup] at hs
    by_cases h1 : a1 = k
    · subst h1
      simp [pyLookup]
    · rw [if_neg (by simpa using h1)] at hs
      simp only [List.map, h1, if_false]
      rw [pyLookup, if_neg (by simpa using h1)]
      exact ih hs

/-- The overwrite pass of `dictInsert` does not touch other keys. -/
theorem pyLookup_map_overwrite_ne {α β : Type} [DecidableEq α]
    {l : List (α × β)} {k k' : α} (v : β) (hk : ¬ k' = k) :
    pyLookup k' (l.map (fun p => if p.1 = k then (k, v) else p)) =
      pyLookup k' l := by
  induction l with
  | nil => simp [pyLookup]
  | cons p rest ih =>
    obtain ⟨a1, b1⟩ := p
    by_cases h1 : a1 = k
    · subst h1
      have h2 : ¬ a1 = k' := fun he => hk he.symm
      simp only [List.map, if_pos rfl]
      rw [pyLookup, if_neg (by simpa using h2), pyLookup, if_neg (by simpa using h2)]
      exact ih
    · simp only [List.map, h1, if_false]
      by_cases h2 : a1 = k'
      · subst h2
        simp [pyLookup]
      · rw [pyLookup, if_neg (by simpa using h2), pyLookup, if_neg (by simpa using h2)]
        exact ih

/-- Appending cannot disturb a key that already resolves. -/
theorem pyLookup_append_of_some {α β : Type} [DecidableEq α]
    {l : List (α × β)} {k : α} {v : β} (tail : List (α × β))
    (h : pyLookup k l = some v) : pyLookup k (l ++ tail) = some v := by
  induction l with
  | nil => simp [pyLookup] at h
  | cons p rest ih =>
    obtain ⟨a1, b1⟩ := p
    simp only [pyLookup] at h
    rw [List.cons_append, pyLookup]
    by_cases h1 : a1 = k
    · simpa [h1] using h
    · rw [if_neg (by simpa using h1)] at h ⊢
      exact ih h

/-- Looking up a key absent on the left finds it in the appended tail. -/
theorem pyLookup_append_of_none {α β : Type} [DecidableEq α]
    {l : List (α × β)} {k : α} (tail : List (α × β))
    (h : pyLookup k l = none) : pyLookup k (l ++ tail) = pyLookup k tail := by
  induction l with
  | nil => simp
  | cons p rest ih =>
    obtain ⟨a1, b1⟩ := p
    simp only [pyLookup] at h
    rw [List.cons_append, pyLookup]
    by_cases h1 : a1 = k
    · simp [h1] at h
    · rw [if_neg (by simpa using h1)] at h ⊢
      exact ih h

/-- `d[k] = v` makes `k` map to `v`. -/
theorem pyLookup_dictInsert_self {α β : Type} [DecidableEq α] (l : List (α × β))
    (k : α) (v : β) : pyLookup k (dictInsert l k v) = some v := by
  unfold dictInsert
  by_cases hs : (pyLookup k l).isSome
  · simp only [hs, if_true]
    exact pyLookup_map_overwrite_self v hs
  · simp only [Bool.not_eq_true] at hs
    simp only [hs, Bool.false_eq_true, if_false]
    rw [pyLookup_append_of_none _ (Option.not_isSome_iff_eq_none.mp (by simp [hs]))]
    simp [pyLookup]

/-- `d[k] = v` preserves any key already mapping to that same value `v`. -/
theorem pyLookup_dictInsert_pres {α β : Type} [DecidableEq α] {l : List (α × β)}
    {k' : α} {v : β} (k : α) (h : pyLookup k' l = some v) :
    pyLookup k' (dictInsert l k v) = some v := by
  by_cases hk : k' = k
  · subst hk
    exact pyLookup_dictInsert_self l k' v
  · unfold dictInsert
    by_cases hs : (pyLookup k l).isSome
    · simp only [hs, if_true]
      rw [pyLookup_map_overwrite_ne v hk]
      exact h
    · simp only [hs, if_false]
      exact pyLookup_append_of_some _ h

/-- When every value of the table is the constant `c`, inserting `c` under any
key keeps that so. -/
theorem dictInsert_values {α β : Type} [DecidableEq α] {l : List (α × β)}
    {c : β} (k : α) (h : ∀ p ∈ l, p.2 = c) : ∀ p ∈ dictInsert l k c, p.2 = c := by
  intro p hp
  unfold dictInsert at hp
  by_cases hs : (pyLookup k l).isSome
  · simp only [hs, if_true] at hp
    rcases List.mem_map.mp hp with ⟨q, hq, hqp⟩
    by_cases hqk : q.1 = k
    · rw [if_pos hqk] at hqp
      rw [← hqp]
    · rw [if_neg hqk] at hqp
      rw [← hqp]
      exact h q hq
  · simp only [hs, if_false] at hp
    rcases List.mem_append.mp hp with hp | hp
    · exact h p hp
    · simp at hp
      rw [hp]

/-- `set.add` contains the added element. -/
theorem mem_setAdd_self {α : Type} [DecidableEq α] (l : List α) (x : α) :
    x ∈ setAdd l x := by
  unfold setAdd
  by_cases hx : x ∈ l <;> simp [hx]

/-- `set.add` keeps the existing elements. -/
theorem mem_setAdd_of_mem {α : Type} [DecidableEq α] {l : List α} {y : α}
    (x : α) (h : y ∈ l) : y ∈ setAdd l x := by
  unfold setAdd
  by_cases hx : x ∈ l <;> simp [hx, h]


/-- Decomposition of a successful `Except` bind. -/
theorem except_bind_ok {α β : Type} {e : Except PyErr α} {f : α → Except PyErr β}
    {b : β} (h : (e >>= f) = .ok b) : ∃ a, e = .ok a ∧ f a = .ok b := by
  cases e with
  | ok a => exact ⟨a, rfl, h⟩
  | error err => simp [Bind.bind, Except.bind] at h

/-- `Evolves` is reflexive. -/
theorem Evolves.refl (st : CodeParserState) : Evolves st st :=
  ⟨fun _ h => h, fun _ h => h, fun _ h => h, fun _ h => h⟩

/-- `Evolves` is transitive. -/
theorem Evolves.trans {s1 s2 s3 : CodeParserState} (h12 : Evolves s1 s2)
    (h23 : Evolves s2 s3) : Evolves s1 s3 :=
  ⟨fun cn h => h23.1 cn (h12.1 cn h),
   fun mn h => h23.2.1 mn (h12.2.1 mn h),
   fun s h => h23.2.2.1 s (h12.2.2.1 s h),
   fun s h => h23.2.2.2 s (h12.2.2.2 s h)⟩

/-- `methodDictSet` with a field update that can only grow the `called` and
`accessed_attributes` sets preserves the run-time invariant and evolves the
state monotonically. -/
theorem methodDictSet_inv_evolves {d : DictArg} {f : MethodRec → MethodRec}
    {st st' : CodeParserState}
    (hfc : ∀ r, ∀ x ∈ r.called, x ∈ (f r).called)
    (hfa : ∀ r, ∀ x ∈ r.accessed_attributes, x ∈ (f r).accessed_attributes)
    (hinv : Inv st) (h : methodDictSet d f st = .ok st') :
    Inv st' ∧ Evolves st st' := by
  cases d with
  | astNode n => simp [methodDictSet] at h
  | methodRec a =>
    simp only [methodDictSet, Except.ok.injEq] at h
    subst h
    obtain ⟨h0, h1, hc, hm, hcv, hmv⟩ := hinv
    refine ⟨⟨h0, h1, hc, ?_, hcv, ?_⟩, ?_, ?_, ?_, ?_⟩
    · simpa [isSome_pyLookup_updAssoc] using hm
    · simpa [methodsOf] using hmv
    · intro cn hcn
      exact hcn
    · intro mn hmn
      simpa [methodsOf] using hmn
    · intro s hs
      unfold calledOf at hs ⊢
      cases hr : pyLookup 1 st.heap.methodH with
      | none => rw [hr] at hs; simp at hs
      | some r =>
        rw [hr] at hs
        by_cases ha : (1 : Nat) = a
        · subst ha
          simp [pyLookup_updAssoc, hr]
          exact hfc r s (by simpa using hs)
        · simp [pyLookup_updAssoc, ha, hr]
          simpa using hs
    · intro s hs
      unfold accessedOf at hs ⊢
      cases hr : pyLookup 1 st.heap.methodH with
      | none => rw [hr] at hs; simp at hs
      | some r =>
        rw [hr] at hs
        by_cases ha : (1 : Nat) = a
        · subst ha
          simp [pyLookup_updAssoc, hr]
          exact hfa r s (by simpa using hs)
        · simp [pyLookup_updAssoc, ha, hr]
          simpa using hs

/-- `classRecUpdate` with a field update that preserves registered method
entries (and the all-methods-point-at-1 invariant) preserves `Inv` and evolves
the state monotonically. -/
theorem classRecUpdate_inv_evolves {cn : String} {f : ClassRec → ClassRec}
    {st st' : CodeParserState}
    (hfm : ∀ r mn, pyLookup mn r.methods = some 1 → pyLookup mn (f r).methods = some 1)
    (hfv : ∀ r, (∀ q ∈ r.methods, q.2 = 1) → ∀ q ∈ (f r).methods, q.2 = 1)
    (hinv : Inv st) (h : classRecUpdate cn f st = .ok st') :
    Inv st' ∧ Evolves st st' := by
  unfold classRecUpdate at h
  cases hl : pyLookup cn st.classes with
  | none => rw [hl] at h; simp at h
  | some ca =>
    rw [hl] at h
    simp only [Except.ok.injEq] at h
    subst h
    obtain ⟨h0, h1, hc, hm, hcv, hmv⟩ := hinv
    refine ⟨⟨h0, h1, ?_, hm, hcv, ?_⟩, ?_, ?_, ?_, ?_⟩
    · simpa [isSome_pyLookup_updAssoc] using hc
    · intro q hq
      unfold methodsOf at hq
      cases hr : pyLookup 0 st.heap.classH with
      | none =>
        rw [pyLookup_updAssoc] at hq
        by_cases ha : (0 : Nat) = ca
        · rw [if_pos ha, hr] at hq
          simp at hq
        · rw [if_neg ha, hr] at hq
          simp at hq
      | some r =>
        rw [pyLookup_updAssoc] at hq
        by_cases ha : (0 : Nat) = ca
        · rw [if_pos ha, hr] at hq
          simp at hq
          refine hfv r ?_ q hq
          intro q2 hq2
          refine hmv q2 ?_
          unfold methodsOf
          rw [hr]
          simpa using hq2
        · rw [if_neg ha] at hq
          refine hmv q ?_
          unfold methodsOf
          exact hq
    · intro cn2 hcn2
      exact hcn2
    · intro mn hmn
      unfold methodsOf at hmn ⊢
      cases hr : pyLookup 0 st.heap.classH with
      | none => rw [hr] at hmn; simp [pyLookup] at hmn
      | some r =>
        rw [hr] at hmn
        rw [pyLookup_updAssoc]
        by_cases ha : (0 : Nat) = ca
        · rw [if_pos ha, hr]
          simp at hmn ⊢
          exact hfm r mn hmn
        · rw [if_neg ha, hr]
          exact hmn
    · intro s hs
      exact hs
    · intro s hs
      exact hs

/-- Incrementing `direct_children` in place preserves `Inv` and evolves the
state (the record's `methods` table is untouched). -/
theorem bump_children_inv_evolves (a : Nat) (st : CodeParserState) (hinv : Inv st) :
    Inv { st with heap := { st.heap with classH := updAssoc st.heap.classH a (fun r => { r with direct_children := r.direct_children + 1 }) } } ∧ Evolves st { st with heap := { st.heap with classH := updAssoc st.heap.classH a (fun r => { r with direct_children := r.direct_children + 1 }) } } := by
  obtain ⟨h0, h1, hc, hm, hcv, hmv⟩ := hinv
  refine ⟨⟨h0, h1, ?_, hm, hcv, ?_⟩, ?_, ?_, ?_, ?_⟩
  · simpa [isSome_pyLookup_updAssoc] using hc
  · intro q hq
    unfold methodsOf at hq
    cases hr : pyLookup 0 st.heap.classH with
    | none =>
      rw [pyLookup_updAssoc] at hq
      by_cases ha : (0 : Nat) = a
      · rw [if_pos ha, hr] at hq
        simp at hq
      · rw [if_neg ha, hr] at hq
        simp at hq
    | some r =>
      rw [pyLookup_updAssoc] at hq
      by_cases ha : (0 : Nat) = a
      · rw [if_pos ha, hr] at hq
        simp at hq
        refine hmv q ?_
        unfold methodsOf
        rw [hr]
        simpa using hq
      · rw [if_neg ha] at hq
        refine hmv q ?_
        unfold methodsOf
        exact hq
  · intro cn2 hcn2
    exact hcn2
  · intro mn hmn
    unfold methodsOf at hmn ⊢
    cases hr : pyLookup 0 st.heap.classH with
    | none => rw [hr] at hmn; simp [pyLookup] at hmn
    | some r =>
      rw [hr] at hmn
      rw [pyLookup_updAssoc]
      by_cases ha : (0 : Nat) = a
      · rw [if_pos ha, hr]
        simpa using hmn
      · rw [if_neg ha, hr]
        exact hmn
  · intro s hs
    exact hs
  · intro s hs
    exact hs

/-- `_extract_inheritance` (a pure step) preserves `Inv` and evolves the state
monotonically: it writes `inheritances` and possibly increments
`direct_children` in place. -/
theorem extract_inheritance_inv_evolves (b cn : String) (st : CodeParserState)
    (hinv : Inv st) :
    Inv (extract_inheritance b cn st) ∧ Evolves st (extract_inheritance b cn st) := by
  have hinv1 : Inv { st with inheritances := dictInsert st.inheritances cn b } := hinv
  have hev1 : Evolves st { st with inheritances := dictInsert st.inheritances cn b } :=
    ⟨fun _ h => h, fun _ h => h, fun _ h => h, fun _ h => h⟩
  simp only [extract_inheritance]
  cases hsplit : pyLookup b st.classes with
  | none =>
    exact ⟨hinv1, hev1⟩
  | some a =>
    have hres := bump_children_inv_evolves a { st with inheritances := dictInsert st.inheritances cn b } hinv1
    exact ⟨hres.1, hev1.trans hres.2⟩


/-- The base-class loop preserves `Inv` and evolves the state monotonically. -/
theorem extractBases_inv_evolves : (bases : List Expr) → ∀ (cn : String)
    (st : CodeParserState), Inv st →
    Inv (extractBases bases cn st) ∧ Evolves st (extractBases bases cn st)
  | [] => by
      intro cn st hinv
      exact ⟨hinv, Evolves.refl st⟩
  | .name b :: rest => by
      intro cn st hinv
      have h1 := extract_inheritance_inv_evolves b cn st hinv
      have h2 := extractBases_inv_evolves rest cn (extract_inheritance b cn st) h1.1
      exact ⟨h2.1, h1.2.trans h2.2⟩
  | .const c :: rest => by
      intro cn st hinv
      exact extractBases_inv_evolves rest cn st hinv
  | .call f a :: rest => by
      intro cn st hinv
      exact extractBases_inv_evolves rest cn st hinv
  | .attribute a e :: rest => by
      intro cn st hinv
      exact extractBases_inv_evolves rest cn st hinv

mutual
/-- The recursive call/attribute walk preserves `Inv` and evolves the state
monotonically whenever it returns. -/
theorem walk_inv_evolves : (e : Expr) → ∀ (d : DictArg) (cn : String)
    (st st' : CodeParserState), Inv st →
    extract_used_attributes_recursive e d cn st = .ok st' → Inv st' ∧ Evolves st st'
  | .name id => by
      intro d cn st st' hinv h
      simp only [extract_used_attributes_recursive] at h
      cases h
      exact ⟨hinv, Evolves.refl st⟩
  | .const c => by
      intro d cn st st' hinv h
      simp only [extract_used_attributes_recursive] at h
      cases h
      exact ⟨hinv, Evolves.refl st⟩
  | .attribute attrname e => by
      intro d cn st st' hinv h
      simp only [extract_used_attributes_recursive] at h
      by_cases hself : Expr.as_string e = "self"
      · rw [if_neg (show ¬ (Expr.as_string e ≠ "self") from fun hne => hne hself)] at h
        unfold dictAddAccessed at h
        refine methodDictSet_inv_evolves ?_ ?_ hinv h
        · exact fun r x hx => hx
        · exact fun r x hx => mem_setAdd_of_mem _ hx
      · rw [if_pos hself] at h
        obtain ⟨st1, h1, h2⟩ := except_bind_ok h
        have ih1 : Inv st1 ∧ Evolves st st1 := by
          refine classRecUpdate_inv_evolves ?_ ?_ hinv h1
          · exact fun r mn hr => hr
          · exact fun r hr => hr
        unfold dictAddAccessed at h2
        have ih2 : Inv st' ∧ Evolves st1 st' := by
          refine methodDictSet_inv_evolves ?_ ?_ ih1.1 h2
          · exact fun r x hx => hx
          · exact fun r x hx => mem_setAdd_of_mem _ hx
        exact ⟨ih2.1, ih1.2.trans ih2.2⟩
  | .call func args => by
      intro d cn st st' hinv h
      simp only [extract_used_attributes_recursive] at h
      obtain ⟨st1, h1, h2⟩ := except_bind_ok h
      have ih1 := walkArgs_inv_evolves args d cn st st1 hinv h1
      obtain ⟨st2, h3, h4⟩ := except_bind_ok h2
      unfold dictAddCalled at h3
      have ih2 : Inv st2 ∧ Evolves st1 st2 := by
        refine methodDictSet_inv_evolves ?_ ?_ ih1.1 h3
        · exact fun r x hx => mem_setAdd_of_mem _ hx
        · exact fun r x hx => hx
      by_cases hd : hasDot (Expr.as_string func) = true
      · rw [if_pos hd] at h4
        by_cases hne : dotPrefix (Expr.as_string func) ≠ cn
        · rw [if_pos hne] at h4
          have ih3 : Inv st' ∧ Evolves st2 st' := by
            refine classRecUpdate_inv_evolves ?_ ?_ ih2.1 h4
            · exact fun r mn hr => hr
            · exact fun r hr => hr
          exact ⟨ih3.1, (ih1.2.trans ih2.2).trans ih3.2⟩
        · rw [if_neg hne] at h4
          cases h4
          exact ⟨ih2.1, ih1.2.trans ih2.2⟩
      · rw [if_neg hd] at h4
        cases h4
        exact ⟨ih2.1, ih1.2.trans ih2.2⟩

/-- The argument loop of the walk preserves `Inv` and evolves the state. -/
theorem walkArgs_inv_evolves : (args : List Expr) → ∀ (d : DictArg) (cn : String)
    (st st' : CodeParserState), Inv st →
    extractUsedArgs args d cn st = .ok st' → Inv st' ∧ Evolves st st'
  | [] => by
      intro d cn st st' hinv h
      simp only [extractUsedArgs] at h
      cases h
      exact ⟨hinv, Evolves.refl st⟩
  | a :: rest => by
      intro d cn st st' hinv h
      simp only [extractUsedArgs] at h
      obtain ⟨st1, h1, h2⟩ := except_bind_ok h
      have ih1 := walk_inv_evolves a d cn st st1 hinv h1
      have ih2 := walkArgs_inv_evolves rest d cn st1 st' ih1.1 h2
      exact ⟨ih2.1, ih1.2.trans ih2.2⟩
end

/-- `_extract_self_attributes` preserves `Inv` and evolves the state. -/
theorem selfAttrs_inv_evolves : (targets : List Target) → ∀ (d : DictArg)
    (cn : String) (st st' : CodeParserState), Inv st →
    extract_self_attributes targets d cn st = .ok st' → Inv st' ∧ Evolves st st'
  | [] => by
      intro d cn st st' hinv h
      simp only [extract_self_attributes] at h
      cases h
      exact ⟨hinv, Evolves.refl st⟩
  | .assignAttr attrname inferred :: rest => by
      intro d cn st st' hinv h
      simp only [extract_self_attributes] at h
      obtain ⟨st1, h1, h2⟩ := except_bind_ok h
      obtain ⟨st2, h3, h4⟩ := except_bind_ok h2
      have ih1 : Inv st1 ∧ Evolves st st1 := by
        refine classRecUpdate_inv_evolves ?_ ?_ hinv h1
        · exact fun r mn hr => hr
        · exact fun r hr => hr
      unfold dictAddAccessed at h3
      have ih2 : Inv st2 ∧ Evolves st1 st2 := by
        refine methodDictSet_inv_evolves ?_ ?_ ih1.1 h3
        · exact fun r x hx => hx
        · exact fun r x hx => mem_setAdd_of_mem _ hx
      have ih3 := selfAttrs_inv_evolves rest d cn st2 st' ih2.1 h4
      exact ⟨ih3.1, (ih1.2.trans ih2.2).trans ih3.2⟩
  | .assignName n :: rest => by
      intro d cn st st' hinv h
      simp only [extract_self_attributes] at h
      exact selfAttrs_inv_evolves rest d cn st st' hinv h
  | .tupleTarget :: rest => by
      intro d cn st st' hinv h
      simp only [extract_self_attributes] at h
      exact selfAttrs_inv_evolves rest d cn st st' hinv h

/-- The method-body loop preserves `Inv` and evolves the state. -/
theorem methodBody_inv_evolves : (body : List Stmt) → ∀ (d : DictArg)
    (cn : String) (st st' : CodeParserState), Inv st →
    extractMethodBody body d cn st = .ok st' → Inv st' ∧ Evolves st st'
  | [] => by
      intro d cn st st' hinv h
      simp only [extractMethodBody] at h
      cases h
      exact ⟨hinv, Evolves.refl st⟩
  | method_node :: rest => by
      intro d cn st st' hinv h
      simp only [extractMethodBody] at h
      obtain ⟨st1, h1, h2⟩ := except_bind_ok h
      have ih1 : Inv st1 ∧ Evolves st st1 := by
        cases method_node with
        | assign targets value =>
          obtain ⟨stA, hA, hB⟩ := except_bind_ok h1
          have ihA := selfAttrs_inv_evolves targets d cn st stA hinv hA
          have ihB := walk_inv_evolves value d cn stA st1 ihA.1 hB
          exact ⟨ihB.1, ihA.2.trans ihB.2⟩
        | exprStmt value =>
          exact walk_inv_evolves value d cn st st1 hinv h1
        | augAssign => cases h1; exact ⟨hinv, Evolves.refl st⟩
        | annAssign => cases h1; exact ⟨hinv, Evolves.refl st⟩
        | ret v => cases h1; exact ⟨hinv, Evolves.refl st⟩
        | raiseS => cases h1; exact ⟨hinv, Evolves.refl st⟩
        | delete => cases h1; exact ⟨hinv, Evolves.refl st⟩
        | passS => cases h1; exact ⟨hinv, Evolves.refl st⟩
        | breakS => cases h1; exact ⟨hinv, Evolves.refl st⟩
        | continueS => cases h1; exact ⟨hinv, Evolves.refl st⟩
        | globalS => cases h1; exact ⟨hinv, Evolves.refl st⟩
        | nonlocalS => cases h1; exact ⟨hinv, Evolves.refl st⟩
        | assertS => cases h1; exact ⟨hinv, Evolves.refl st⟩
        | importS => cases h1; exact ⟨hinv, Evolves.refl st⟩
        | importFrom => cases h1; exact ⟨hinv, Evolves.refl st⟩
        | ifS b o => cases h1; exact ⟨hinv, Evolves.refl st⟩
        | forS b o => cases h1; exact ⟨hinv, Evolves.refl st⟩
        | whileS b o => cases h1; exact ⟨hinv, Evolves.refl st⟩
        | tryS b hs o f => cases h1; exact ⟨hinv, Evolves.refl st⟩
        | withS b => cases h1; exact ⟨hinv, Evolves.refl st⟩
        | funcDef n a b fl => cases h1; exact ⟨hinv, Evolves.refl st⟩
        | classDef n b c => cases h1; exact ⟨hinv, Evolves.refl st⟩
      have ih2 := methodBody_inv_evolves rest d cn st1 st' ih1.1 h2
      exact ⟨ih2.1, ih1.2.trans ih2.2⟩

/-- `_extract_methods` preserves `Inv` and evolves the state. -/
theorem extractMethods_inv_evolves (node : Stmt) (cn : String)
    (st st' : CodeParserState) (hinv : Inv st)
    (h : extract_methods node cn st = .ok st') : Inv st' ∧ Evolves st st' := by
  cases node with
  | funcDef mname margs mbody fl =>
    simp only [extract_methods] at h
    obtain ⟨n, hn, h'⟩ := except_bind_ok h
    obtain ⟨st1, h1, h2⟩ := except_bind_ok h'
    obtain ⟨st2, h3, h4⟩ := except_bind_ok h2
    obtain ⟨st3, h5, h6⟩ := except_bind_ok h4
    have ih1 : Inv st1 ∧ Evolves st st1 := by
      refine methodDictSet_inv_evolves ?_ ?_ hinv h1
      · exact fun r x hx => hx
      · exact fun r x hx => hx
    have ih2 : Inv st2 ∧ Evolves st1 st2 := by
      refine methodDictSet_inv_evolves ?_ ?_ ih1.1 h3
      · exact fun r x hx => hx
      · exact fun r x hx => hx
    have ih3 := methodBody_inv_evolves mbody _ cn st2 st3 ih2.1 h5
    have hma : st.methodInitAddr = 1 := hinv.2.1
    rw [hma] at h6
    have ih4 : Inv st' ∧ Evolves st3 st' := by
      refine classRecUpdate_inv_evolves ?_ ?_ ih3.1 h6
      · exact fun r mn hr => pyLookup_dictInsert_pres mname hr
      · exact fun r hr => dictInsert_values mname hr
    exact ⟨ih4.1, ((ih1.2.trans ih2.2).trans ih3.2).trans ih4.2⟩
  | assign targets value =>
    simp only [extract_methods] at h
    obtain ⟨n, hn, h'⟩ := except_bind_ok h
    cases h'
    exact ⟨hinv, Evolves.refl st⟩
  | augAssign =>
    simp only [extract_methods] at h
    obtain ⟨n, hn, h'⟩ := except_bind_ok h
    cases h'
    exact ⟨hinv, Evolves.refl st⟩
  | annAssign =>
    simp only [extract_methods] at h
    obtain ⟨n, hn, h'⟩ := except_bind_ok h
    cases h'
    exact ⟨hinv, Evolves.refl st⟩
  | exprStmt value =>
    simp only [extract_methods] at h
    obtain ⟨n, hn, h'⟩ := except_bind_ok h
    cases h'
    exact ⟨hinv, Evolves.refl st⟩
  | ret v =>
    simp only [extract_methods] at h
    obtain ⟨n, hn, h'⟩ := except_bind_ok h
    cases h'
    exact ⟨hinv, Evolves.refl st⟩
  | raiseS =>
    simp only [extract_methods] at h
    obtain ⟨n, hn, h'⟩ := except_bind_ok h
    cases h'
    exact ⟨hinv, Evolves.refl st⟩
  | delete =>
    simp only [extract_methods] at h
    obtain ⟨n, hn, h'⟩ := except_bind_ok h
    cases h'
    exact ⟨hinv, Evolves.refl st⟩
  | passS =>
    simp only [extract_methods] at h
    obtain ⟨n, hn, h'⟩ := except_bind_ok h
    cases h'
    exact ⟨hinv, Evolves.refl st⟩
  | breakS =>
    simp only [extract_methods] at h
    obtain ⟨n, hn, h'⟩ := except_bind_ok h
    cases h'
    exact ⟨hinv, Evolves.refl st⟩
  | continueS =>
    simp only [extract_methods] at h
    obtain ⟨n, hn, h'⟩ := except_bind_ok h
    cases h'
    exact ⟨hinv, Evolves.refl st⟩
  | globalS =>
    simp only [extract_methods] at h
    obtain ⟨n, hn, h'⟩ := except_bind_ok h
    cases h'
    exact ⟨hinv, Evolves.refl st⟩
  | nonlocalS =>
    simp only [extract_methods] at h
    obtain ⟨n, hn, h'⟩ := except_bind_ok h
    cases h'
    exact ⟨hinv, Evolves.refl st⟩
  | assertS =>
    simp only [extract_methods] at h
    obtain ⟨n, hn, h'⟩ := except_bind_ok h
    cases h'
    exact ⟨hinv, Evolves.refl st⟩
  | importS =>
    simp only [extract_methods] at h
    obtain ⟨n, hn, h'⟩ := except_bind_ok h
    cases h'
    exact ⟨hinv, Evolves.refl st⟩
  | importFrom =>
    simp only [extract_methods] at h
    obtain ⟨n, hn, h'⟩ := except_bind_ok h
    cases h'
    exact ⟨hinv, Evolves.refl st⟩
  | ifS b o =>
    simp only [extract_methods] at h
    obtain ⟨n, hn, h'⟩ := except_bind_ok h
    cases h'
    exact ⟨hinv, Evolves.refl st⟩
  | forS b o =>
    simp only [extract_methods] at h
    obtain ⟨n, hn, h'⟩ := except_bind_ok h
    cases h'
    exact ⟨hinv, Evolves.refl st⟩
  | whileS b o =>
    simp only [extract_methods] at h
    obtain ⟨n, hn, h'⟩ := except_bind_ok h
    cases h'
    exact ⟨hinv, Evolves.refl st⟩
  | tryS b hs o f =>
    simp only [extract_methods] at h
    obtain ⟨n, hn, h'⟩ := except_bind_ok h
    cases h'
    exact ⟨hinv, Evolves.refl st⟩
  | withS b =>
    simp only [extract_methods] at h
    obtain ⟨n, hn, h'⟩ := except_bind_ok h
    cases h'
    exact ⟨hinv, Evolves.refl st⟩
  | classDef n b c =>
    simp only [extract_methods] at h
    obtain ⟨k, hn, h'⟩ := except_bind_ok h
    cases h'
    exact ⟨hinv, Evolves.refl st⟩

/-- The class-body variable loop preserves `Inv` and evolves the state. -/
theorem classBodyVariables_inv_evolves : (targets : List Target) →
    ∀ (cn : String) (st st' : CodeParserState), Inv st →
    classBodyVariables targets cn st = .ok st' → Inv st' ∧ Evolves st st'
  | [] => by
      intro cn st st' hinv h
      simp only [classBodyVariables] at h
      cases h
      exact ⟨hinv, Evolves.refl st⟩
  | .assignName n :: rest => by
      intro cn st st' hinv h
      simp only [classBodyVariables] at h
      obtain ⟨st1, h1, h2⟩ := except_bind_ok h
      have ih1 : Inv st1 ∧ Evolves st st1 := by
        refine classRecUpdate_inv_evolves ?_ ?_ hinv h1
        · exact fun r mn hr => hr
        · exact fun r hr => hr
      have ih2 := classBodyVariables_inv_evolves rest cn st1 st' ih1.1 h2
      exact ⟨ih2.1, ih1.2.trans ih2.2⟩
  | .assignAttr a i :: rest => by
      intro cn st st' hinv h
      simp only [classBodyVariables] at h
      exact Except.noConfusion h
  | .tupleTarget :: rest => by
      intro cn st st' hinv h
      simp only [classBodyVariables] at h
      exact Except.noConfusion h

/-- The class-body loop preserves `Inv` and evolves the state. -/
theorem classBody_inv_evolves : (body : List Stmt) → ∀ (cn : String)
    (st st' : CodeParserState), Inv st →
    extractClassBody body cn st = .ok st' → Inv st' ∧ Evolves st st'
  | [] => by
      intro cn st st' hinv h
      simp only [extractClassBody] at h
      cases h
      exact ⟨hinv, Evolves.refl st⟩
  | class_node :: rest => by
      intro cn st st' hinv h
      simp only [extractClassBody] at h
      obtain ⟨st1, h1, h2⟩ := except_bind_ok h
      have ih1 : Inv st1 ∧ Evolves st st1 := by
        cases class_node with
        | funcDef a b c fl => exact extractMethods_inv_evolves _ cn st st1 hinv h1
        | assign targets value =>
          obtain ⟨stA, hA, hB⟩ := except_bind_ok h1
          have ihA := classBodyVariables_inv_evolves targets cn st stA hinv hA
          have ihB := walk_inv_evolves value _ cn stA st1 ihA.1 hB
          exact ⟨ihB.1, ihA.2.trans ihB.2⟩
        | exprStmt value => exact walk_inv_evolves value _ cn st st1 hinv h1
        | augAssign => cases h1; exact ⟨hinv, Evolves.refl st⟩
        | annAssign => cases h1; exact ⟨hinv, Evolves.refl st⟩
        | ret v => cases h1; exact ⟨hinv, Evolves.refl st⟩
        | raiseS => cases h1; exact ⟨hinv, Evolves.refl st⟩
        | delete => cases h1; exact ⟨hinv, Evolves.refl st⟩
        | passS => cases h1; exact ⟨hinv, Evolves.refl st⟩
        | breakS => cases h1; exact ⟨hinv, Evolves.refl st⟩
        | continueS => cases h1; exact ⟨hinv, Evolves.refl st⟩
        | globalS => cases h1; exact ⟨hinv, Evolves.refl st⟩
        | nonlocalS => cases h1; exact ⟨hinv, Evolves.refl st⟩
        | assertS => cases h1; exact ⟨hinv, Evolves.refl st⟩
        | importS => cases h1; exact ⟨hinv, Evolves.refl st⟩
        | importFrom => cases h1; exact ⟨hinv, Evolves.refl st⟩
        | ifS b o => cases h1; exact ⟨hinv, Evolves.refl st⟩
        | forS b o => cases h1; exact ⟨hinv, Evolves.refl st⟩
        | whileS b o => cases h1; exact ⟨hinv, Evolves.refl st⟩
        | tryS b hs o f => cases h1; exact ⟨hinv, Evolves.refl st⟩
        | withS b => cases h1; exact ⟨hinv, Evolves.refl st⟩
        | classDef n b c => cases h1; exact ⟨hinv, Evolves.refl st⟩
      have ih2 := classBody_inv_evolves rest cn st1 st' ih1.1 h2
      exact ⟨ih2.1, ih1.2.trans ih2.2⟩

/-- Registering a class name (`self.classes[name] = self._CLASS_INIT`)
preserves `Inv` and evolves the state. -/
theorem classesInsert_inv_evolves (cname : String) (st : CodeParserState)
    (hinv : Inv st) :
    Inv { st with classes := dictInsert st.classes cname st.classInitAddr } ∧
    Evolves st { st with classes := dictInsert st.classes cname st.classInitAddr } := by
  obtain ⟨h0, h1, hc, hm, hcv, hmv⟩ := hinv
  refine ⟨⟨h0, h1, hc, hm, ?_, hmv⟩, ?_, fun mn hx => hx, fun s hx => hx, fun s hx => hx⟩
  · rw [h0]
    exact dictInsert_values cname hcv
  · intro cn2 hcn2
    rw [h0]
    exact pyLookup_dictInsert_pres cname hcn2

/-- The per-module loop of `_extract_classes_data` preserves `Inv` and evolves
the state. -/
theorem classesData_inv_evolves : (body : List Stmt) →
    ∀ (st st' : CodeParserState), Inv st →
    extract_classes_data body st = .ok st' → Inv st' ∧ Evolves st st'
  | [] => by
      intro st st' hinv h
      simp only [extract_classes_data] at h
      cases h
      exact ⟨hinv, Evolves.refl st⟩
  | node :: rest => by
      intro st st' hinv h
      simp only [extract_classes_data] at h
      obtain ⟨st1, h1, h2⟩ := except_bind_ok h
      have ih1 : Inv st1 ∧ Evolves st st1 := by
        cases node with
        | classDef cname bases cbody =>
          obtain ⟨stB, hB, hC⟩ := except_bind_ok h1
          cases hC
          have ihA := classesInsert_inv_evolves cname st hinv
          have ihB := classBody_inv_evolves cbody cname _ stB ihA.1 hB
          have ihC := extractBases_inv_evolves bases cname stB ihB.1
          exact ⟨ihC.1, (ihA.2.trans ihB.2).trans ihC.2⟩
        | funcDef a b c fl => cases h1; exact ⟨hinv, Evolves.refl st⟩
        | assign targets value => cases h1; exact ⟨hinv, Evolves.refl st⟩
        | exprStmt value => cases h1; exact ⟨hinv, Evolves.refl st⟩
        | augAssign => cases h1; exact ⟨hinv, Evolves.refl st⟩
        | annAssign => cases h1; exact ⟨hinv, Evolves.refl st⟩
        | ret v => cases h1; exact ⟨hinv, Evolves.refl st⟩
        | raiseS => cases h1; exact ⟨hinv, Evolves.refl st⟩
        | delete => cases h1; exact ⟨hinv, Evolves.refl st⟩
        | passS => cases h1; exact ⟨hinv, Evolves.refl st⟩
        | breakS => cases h1; exact ⟨hinv, Evolves.refl st⟩
        | continueS => cases h1; exact ⟨hinv, Evolves.refl st⟩
        | globalS => cases h1; exact ⟨hinv, Evolves.refl st⟩
        | nonlocalS => cases h1; exact ⟨hinv, Evolves.refl st⟩
        | assertS => cases h1; exact ⟨hinv, Evolves.refl st⟩
        | importS => cases h1; exact ⟨hinv, Evolves.refl st⟩
        | importFrom => cases h1; exact ⟨hinv, Evolves.refl st⟩
        | ifS b o => cases h1; exact ⟨hinv, Evolves.refl st⟩
        | forS b o => cases h1; exact ⟨hinv, Evolves.refl st⟩
        | whileS b o => cases h1; exact ⟨hinv, Evolves.refl st⟩
        | tryS b hs o f => cases h1; exact ⟨hinv, Evolves.refl st⟩
        | withS b => cases h1; exact ⟨hinv, Evolves.refl st⟩
      have ih2 := classesData_inv_evolves rest st1 st' ih1.1 h2
      exact ⟨ih2.1, ih1.2.trans ih2.2⟩

/-- `dict['called'].add` on the shared method record records the element. -/
theorem dictAddCalled_fact {v : String} {st st' : CodeParserState}
    (hm : (pyLookup 1 st.heap.methodH).isSome = true)
    (h : dictAddCalled (.methodRec 1) v st = .ok st') : v ∈ calledOf st' := by
  unfold dictAddCalled methodDictSet at h
  simp only [Except.ok.injEq] at h
  subst h
  unfold calledOf
  rw [pyLookup_updAssoc, if_pos rfl]
  cases hr : pyLookup 1 st.heap.methodH with
  | none => rw [hr] at hm; simp at hm
  | some r =>
    simp
    exact mem_setAdd_self r.called v

/-- `dict['accessed_attributes'].add` on the shared method record records the
element. -/
theorem dictAddAccessed_fact {v : String} {st st' : CodeParserState}
    (hm : (pyLookup 1 st.heap.methodH).isSome = true)
    (h : dictAddAccessed (.methodRec 1) v st = .ok st') : v ∈ accessedOf st' := by
  unfold dictAddAccessed methodDictSet at h
  simp only [Except.ok.injEq] at h
  subst h
  unfold accessedOf
  rw [pyLookup_updAssoc, if_pos rfl]
  cases hr : pyLookup 1 st.heap.methodH with
  | none => rw [hr] at hm; simp at hm
  | some r =>
    simp
    exact mem_setAdd_self r.accessed_attributes v

mutual
/-- Completeness of the walk when the destination is the shared method record:
every call text and attribute key reachable through call-argument recursion is
in the record afterwards. -/
theorem walk_complete : (e : Expr) → ∀ (cn : String) (st st' : CodeParserState),
    Inv st → extract_used_attributes_recursive e (.methodRec 1) cn st = .ok st' →
    (∀ s ∈ reachCalled e, s ∈ calledOf st') ∧
    (∀ s ∈ reachAccessed e, s ∈ accessedOf st')
  | .name id => by
      intro cn st st' hinv h
      simp only [extract_used_attributes_recursive] at h
      cases h
      constructor <;> intro s hs <;> simp [reachCalled, reachAccessed] at hs
  | .const c => by
      intro cn st st' hinv h
      simp only [extract_used_attributes_recursive] at h
      cases h
      constructor <;> intro s hs <;> simp [reachCalled, reachAccessed] at hs
  | .attribute attrname e => by
      intro cn st st' hinv h
      simp only [extract_used_attributes_recursive] at h
      refine ⟨?_, ?_⟩
      · intro s hs
        simp [reachCalled] at hs
      · intro s hs
        simp only [reachAccessed, List.mem_singleton] at hs
        subst hs
        by_cases hself : Expr.as_string e = "self"
        · rw [if_neg (show ¬ (Expr.as_string e ≠ "self") from fun hne => hne hself)] at h
          rw [if_pos hself]
          exact dictAddAccessed_fact hinv.2.2.2.1 h
        · rw [if_pos hself] at h
          obtain ⟨st1, h1, h2⟩ := except_bind_ok h
          have ih1 : Inv st1 ∧ Evolves st st1 := by
            refine classRecUpdate_inv_evolves ?_ ?_ hinv h1
            · exact fun r mn hr => hr
            · exact fun r hr => hr
          rw [if_neg hself]
          exact dictAddAccessed_fact ih1.1.2.2.2.1 h2
  | .call func args => by
      intro cn st st' hinv h
      simp only [extract_used_attributes_recursive] at h
      obtain ⟨st1, h1, h2⟩ := except_bind_ok h
      obtain ⟨st2, h3, h4⟩ := except_bind_ok h2
      have ihargs := walkArgs_complete args cn st st1 hinv h1
      have hie1 := walkArgs_inv_evolves args (.methodRec 1) cn st st1 hinv h1
      have hcall : Expr.as_string func ∈ calledOf st2 :=
        dictAddCalled_fact hie1.1.2.2.2.1 h3
      have hie2 : Inv st2 ∧ Evolves st1 st2 := by
        unfold dictAddCalled at h3
        refine methodDictSet_inv_evolves ?_ ?_ hie1.1 h3
        · exact fun r x hx => mem_setAdd_of_mem _ hx
        · exact fun r x hx => hx
      have hie3 : Inv st' ∧ Evolves st2 st' := by
        by_cases hd : hasDot (Expr.as_string func) = true
        · rw [if_pos hd] at h4
          by_cases hne : dotPrefix (Expr.as_string func) ≠ cn
          · rw [if_pos hne] at h4
            refine classRecUpdate_inv_evolves ?_ ?_ hie2.1 h4
            · exact fun r mn hr => hr
            · exact fun r hr => hr
          · rw [if_neg hne] at h4
            cases h4
            exact ⟨hie2.1, Evolves.refl _⟩
        · rw [if_neg hd] at h4
          cases h4
          exact ⟨hie2.1, Evolves.refl _⟩
      refine ⟨?_, ?_⟩
      · intro s hs
        simp only [reachCalled] at hs
        rcases List.mem_append.mp hs with hs | hs
        · exact hie3.2.2.2.1 s (hie2.2.2.2.1 s (ihargs.1 s hs))
        · simp at hs
          subst hs
          exact hie3.2.2.2.1 _ hcall
      · intro s hs
        simp only [reachAccessed] at hs
        exact hie3.2.2.2.2 s (hie2.2.2.2.2 s (ihargs.2 s hs))

/-- Completeness of the walk over a call-argument list. -/
theorem walkArgs_complete : (args : List Expr) → ∀ (cn : String)
    (st st' : CodeParserState), Inv st →
    extractUsedArgs args (.methodRec 1) cn st = .ok st' →
    (∀ s ∈ reachCalledArgs args, s ∈ calledOf st') ∧
    (∀ s ∈ reachAccessedArgs args, s ∈ accessedOf st')
  | [] => by
      intro cn st st' hinv h
      simp only [extractUsedArgs] at h
      cases h
      constructor <;> intro s hs <;> simp [reachCalledArgs, reachAccessedArgs] at hs
  | a :: rest => by
      intro cn st st' hinv h
      simp only [extractUsedArgs] at h
      obtain ⟨st1, h1, h2⟩ := except_bind_ok h
      have ih1 := walk_complete a cn st st1 hinv h1
      have hie1 := walk_inv_evolves a (.methodRec 1) cn st st1 hinv h1
      have ih2 := walkArgs_complete rest cn st1 st' hie1.1 h2
      have hie2 := walkArgs_inv_evolves rest (.methodRec 1) cn st1 st' hie1.1 h2
      refine ⟨?_, ?_⟩
      · intro s hs
        simp only [reachCalledArgs] at hs
        rcases List.mem_append.mp hs with hs | hs
        · exact hie2.2.2.2.1 s (ih1.1 s hs)
        · exact ih2.1 s hs
      · intro s hs
        simp only [reachAccessedArgs] at hs
        rcases List.mem_append.mp hs with hs | hs
        · exact hie2.2.2.2.2 s (ih1.2 s hs)
        · exact ih2.2 s hs
end

/-- Completeness of the method-body loop: the value expression of every
top-level expression statement or assignment has its reachable call texts and
attribute keys in the shared method record afterwards. -/
theorem methodBody_complete : (body : List Stmt) → ∀ (cn : String)
    (st st' : CodeParserState), Inv st →
    extractMethodBody body (.methodRec 1) cn st = .ok st' →
    ∀ v : Expr, (Stmt.exprStmt v ∈ body ∨ ∃ tg, Stmt.assign tg v ∈ body) →
    (∀ s ∈ reachCalled v, s ∈ calledOf st') ∧
    (∀ s ∈ reachAccessed v, s ∈ accessedOf st')
  | [] => by
      intro cn st st' hinv h v hv
      rcases hv with hv | ⟨tg, hv⟩ <;> simp at hv
  | method_node :: rest => by
      intro cn st st' hinv h v hv
      simp only [extractMethodBody] at h
      obtain ⟨st1, h1, h2⟩ := except_bind_ok h
      have hone : extractMethodBody [method_node] (.methodRec 1) cn st = .ok st1 := by
        simp only [extractMethodBody]
        rw [h1]
        rfl
      have hstep := methodBody_inv_evolves [method_node] (.methodRec 1) cn st st1 hinv hone
      have hrest := methodBody_inv_evolves rest (.methodRec 1) cn st1 st' hstep.1 h2
      have hhead : (Stmt.exprStmt v = method_node ∨ ∃ tg, Stmt.assign tg v = method_node) ∨
          (Stmt.exprStmt v ∈ rest ∨ ∃ tg, Stmt.assign tg v ∈ rest) := by
        rcases hv with hv | ⟨tg, hv⟩
        · rcases List.mem_cons.mp hv with hv | hv
          · exact Or.inl (Or.inl hv)
          · exact Or.inr (Or.inl hv)
        · rcases List.mem_cons.mp hv with hv | hv
          · exact Or.inl (Or.inr ⟨tg, hv⟩)
          · exact Or.inr (Or.inr ⟨tg, hv⟩)
      rcases hhead with hv1 | hv2
      · have hfacts : (∀ s ∈ reachCalled v, s ∈ calledOf st1) ∧
            (∀ s ∈ reachAccessed v, s ∈ accessedOf st1) := by
          rcases hv1 with hv1 | ⟨tg, hv1⟩
          · subst hv1
            exact walk_complete v cn st st1 hinv h1
          · subst hv1
            obtain ⟨stA, hA, hB⟩ := except_bind_ok h1
            have ihA := selfAttrs_inv_evolves tg (.methodRec 1) cn st stA hinv hA
            exact walk_complete v cn stA st1 ihA.1 hB
        exact ⟨fun s hs => hrest.2.2.2.1 s (hfacts.1 s hs),
               fun s hs => hrest.2.2.2.2 s (hfacts.2 s hs)⟩
      · exact methodBody_complete rest cn st1 st' hstep.1 h2 v hv2

/-- Registering a method (`self.classes[cn]['methods'][mname] = method_dict`)
makes the `methods` table of the shared class record map `mname` to the shared
method record. -/
theorem classRecUpdate_insert_method {cn mname : String}
    {st st' : CodeParserState} (hinv : Inv st)
    (h : classRecUpdate cn (fun r => { r with methods := dictInsert r.methods mname 1 }) st = .ok st') :
    pyLookup mname (methodsOf st') = some 1 := by
  unfold classRecUpdate at h
  cases hl : pyLookup cn st.classes with
  | none => rw [hl] at h; exact Except.noConfusion h
  | some ca =>
    rw [hl] at h
    simp only [Except.ok.injEq] at h
    subst h
    have hca : ca = 0 := hinv.2.2.2.2.1 (cn, ca) (pyLookup_mem hl)
    subst hca
    unfold methodsOf
    rw [pyLookup_updAssoc, if_pos rfl]
    cases hr : pyLookup 0 st.heap.classH with
    | none =>
      have hc := hinv.2.2.1
      rw [hr] at hc
      simp at hc
    | some r =>
      simp
      exact pyLookup_dictInsert_self r.methods mname 1

/-- Completeness of `_extract_methods`: the method ends up registered in the
shared class record, and every walkable fact of its body is in the shared
method record. -/
theorem extractMethods_complete {mname : String} {margs : List String}
    {mbody : List Stmt} {fl : Bool} {cn : String} {st st' : CodeParserState}
    (hinv : Inv st)
    (h : extract_methods (.funcDef mname margs mbody fl) cn st = .ok st') :
    pyLookup mname (methodsOf st') = some 1 ∧
    (∀ v : Expr, (Stmt.exprStmt v ∈ mbody ∨ ∃ tg, Stmt.assign tg v ∈ mbody) →
      (∀ s ∈ reachCalled v, s ∈ calledOf st') ∧
      (∀ s ∈ reachAccessed v, s ∈ accessedOf st')) := by
  simp only [extract_methods] at h
  rw [hinv.2.1] at h
  obtain ⟨n, hn, h'⟩ := except_bind_ok h
  obtain ⟨st1, h1, h2⟩ := except_bind_ok h'
  obtain ⟨st2, h3, h4⟩ := except_bind_ok h2
  obtain ⟨st3, h5, h6⟩ := except_bind_ok h4
  have ih1 : Inv st1 ∧ Evolves st st1 := by
    refine methodDictSet_inv_evolves ?_ ?_ hinv h1
    · exact fun r x hx => hx
    · exact fun r x hx => hx
  have ih2 : Inv st2 ∧ Evolves st1 st2 := by
    refine methodDictSet_inv_evolves ?_ ?_ ih1.1 h3
    · exact fun r x hx => hx
    · exact fun r x hx => hx
  have ih3 := methodBody_inv_evolves mbody (.methodRec 1) cn st2 st3 ih2.1 h5
  have ih4 : Inv st' ∧ Evolves st3 st' := by
    refine classRecUpdate_inv_evolves ?_ ?_ ih3.1 h6
    · exact fun r mn hr => pyLookup_dictInsert_pres mname hr
    · exact fun r hr => dictInsert_values mname hr
  constructor
  · exact classRecUpdate_insert_method ih3.1 h6
  · intro v hv
    have hfacts := methodBody_complete mbody cn st2 st3 ih2.1 h5 v hv
    exact ⟨fun s hs => ih4.2.2.2.1 s (hfacts.1 s hs),
           fun s hs => ih4.2.2.2.2 s (hfacts.2 s hs)⟩

/-- Completeness of the class-body loop: every function definition in the
class body ends up registered, with its walkable facts recorded. -/
theorem classBody_complete : (body : List Stmt) → ∀ (cn : String)
    (st st' : CodeParserState), Inv st →
    extractClassBody body cn st = .ok st' →
    ∀ (mname : String) (margs : List String) (mbody : List Stmt) (fl : Bool),
    Stmt.funcDef mname margs mbody fl ∈ body →
    ∀ v : Expr, (Stmt.exprStmt v ∈ mbody ∨ ∃ tg, Stmt.assign tg v ∈ mbody) →
    pyLookup mname (methodsOf st') = some 1 ∧
    (∀ s ∈ reachCalled v, s ∈ calledOf st') ∧
    (∀ s ∈ reachAccessed v, s ∈ accessedOf st')
  | [] => by
      intro cn st st' hinv h mname margs mbody fl hfd v hv
      simp at hfd
  | class_node :: rest => by
      intro cn st st' hinv h mname margs mbody fl hfd v hv
      simp only [extractClassBody] at h
      obtain ⟨st1, h1, h2⟩ := except_bind_ok h
      have hone : extractClassBody [class_node] cn st = .ok st1 := by
        simp only [extractClassBody]
        rw [h1]
        rfl
      have hstep := classBody_inv_evolves [class_node] cn st st1 hinv hone
      have hrest := classBody_inv_evolves rest cn st1 st' hstep.1 h2
      rcases List.mem_cons.mp hfd with heq | hmem
      · subst heq
        have hcomp := extractMethods_complete hinv h1
        have hf := hcomp.2 v hv
        exact ⟨hrest.2.2.1 mname hcomp.1,
               fun s hs => hrest.2.2.2.1 s (hf.1 s hs),
               fun s hs => hrest.2.2.2.2 s (hf.2 s hs)⟩
      · exact classBody_complete rest cn st1 st' hstep.1 h2 mname margs mbody fl hmem v hv

/-- Completeness of the module loop: for every class definition, every method
in it and every walkable statement value, the final state registers the class
(pointing at the shared class record), registers the method and holds the
walked facts. -/
theorem classesData_complete : (body : List Stmt) → ∀ (st st' : CodeParserState),
    Inv st → extract_classes_data body st = .ok st' →
    ∀ (cname : String) (bases : List Expr) (cbody : List Stmt),
    Stmt.classDef cname bases cbody ∈ body →
    ∀ (mname : String) (margs : List String) (mbody : List Stmt) (fl : Bool),
    Stmt.funcDef mname margs mbody fl ∈ cbody →
    ∀ v : Expr, (Stmt.exprStmt v ∈ mbody ∨ ∃ tg, Stmt.assign tg v ∈ mbody) →
    pyLookup cname st'.classes = some 0 ∧
    pyLookup mname (methodsOf st') = some 1 ∧
    (∀ s ∈ reachCalled v, s ∈ calledOf st') ∧
    (∀ s ∈ reachAccessed v, s ∈ accessedOf st')
  | [] => by
      intro st st' hinv h cname bases cbody hcls
      simp at hcls
  | node :: rest => by
      intro st st' hinv h cname bases cbody hcls mname margs mbody fl hfd v hv
      simp only [extract_classes_data] at h
      obtain ⟨st1, h1, h2⟩ := except_bind_ok h
      have hone : extract_classes_data [node] st = .ok st1 := by
        simp only [extract_classes_data]
        rw [h1]
        rfl
      have hstep := classesData_inv_evolves [node] st st1 hinv hone
      have hrest := classesData_inv_evolves rest st1 st' hstep.1 h2
      rcases List.mem_cons.mp hcls with heq | hmem
      · subst heq
        obtain ⟨stB, hB, hC⟩ := except_bind_ok h1
        cases hC
        have ihA := classesInsert_inv_evolves cname st hinv
        have hclsA : pyLookup cname (dictInsert st.classes cname st.classInitAddr) = some 0 := by
          rw [hinv.1]
          exact pyLookup_dictInsert_self st.classes cname 0
        have hcomp := classBody_complete cbody cname _ stB ihA.1 hB mname margs mbody fl hfd v hv
        have ihB := classBody_inv_evolves cbody cname _ stB ihA.1 hB
        have ihC := extractBases_inv_evolves bases cname stB ihB.1
        have hclsB : pyLookup cname stB.classes = some 0 := ihB.2.1 cname hclsA
        have hcls1 : pyLookup cname (extractBases bases cname stB).classes = some 0 :=
          ihC.2.1 cname hclsB
        refine ⟨hrest.2.1 cname hcls1, hrest.2.2.1 mname (ihC.2.2.1 mname hcomp.1), ?_, ?_⟩
        · exact fun s hs => hrest.2.2.2.1 s (ihC.2.2.2.1 s (hcomp.2.1 s hs))
        · exact fun s hs => hrest.2.2.2.2 s (ihC.2.2.2.2 s (hcomp.2.2 s hs))
      · exact classesData_complete rest st1 st' hstep.1 h2 cname bases cbody hmem
          mname margs mbody fl hfd v hv

/-- The initial parser state satisfies the run-time invariant. -/
theorem inv_initState : Inv initState := by
  refine ⟨rfl, rfl, rfl, rfl, ?_, ?_⟩
  · intro p hp
    simp [initState] at hp
  · intro q hq
    simp [methodsOf, initState, pyLookup, emptyClassRec] at hq

/-- C6 as amended: for every successfully extracted module, every call
expression and attribute access reachable by the walk — i.e. occurring in the
value of a top-level expression statement or assignment of a method body,
descending only through call arguments — is recorded in the method record that
the registry's `methods` entry for that method points to.  (Other positions —
return statements, conditionals, loops, non-argument subexpressions and
class-body statements — are not walked; see the counterexample.) -/
theorem walk_facts_recorded_in_method_record (module : List Stmt)
    (st : CodeParserState) (hok : extract_code_data module = .ok st)
    (cname : String) (bases : List Expr) (cbody : List Stmt)
    (hcls : Stmt.classDef cname bases cbody ∈ module)
    (mname : String) (margs : List String) (mbody : List Stmt) (fl : Bool)
    (hfd : Stmt.funcDef mname margs mbody fl ∈ cbody)
    (v : Expr) (hv : Stmt.exprStmt v ∈ mbody ∨ ∃ tg, Stmt.assign tg v ∈ mbody) :
    ∃ mr, methodRecOf st cname mname = some mr ∧
      (∀ s ∈ reachCalled v, s ∈ mr.called) ∧
      (∀ s ∈ reachAccessed v, s ∈ mr.accessed_attributes) := by
  have hinv0 := inv_initState
  unfold extract_code_data at hok
  have hmain := classesData_complete module initState st hinv0 hok cname bases cbody
    hcls mname margs mbody fl hfd v hv
  have hinv := (classesData_inv_evolves module initState st hinv0 hok).1
  obtain ⟨hcls0, hmn1, hcal, hacc⟩ := hmain
  cases hcr : pyLookup 0 st.heap.classH with
  | none =>
    have hc := hinv.2.2.1
    rw [hcr] at hc
    simp at hc
  | some cr =>
    cases hmr : pyLookup 1 st.heap.methodH with
    | none =>
      have hm := hinv.2.2.2.1
      rw [hmr] at hm
      simp at hm
    | some mr =>
      have hmncr : pyLookup mname cr.methods = some 1 := by
        unfold methodsOf at hmn1
        rw [hcr] at hmn1
        simpa using hmn1
      refine ⟨mr, ?_, ?_, ?_⟩
      · simp [methodRecOf, classRecOf, hcls0, hcr, hmncr, hmr]
      · intro s hs
        have hmem := hcal s hs
        unfold calledOf at hmem
        rw [hmr] at hmem
        simpa using hmem
      · intro s hs
        have hmem := hacc s hs
        unfold accessedOf at hmem
        rw [hmr] at hmem
        simpa using hmem

/-- C6 amended-claim witness: the theorem applied to the concrete module
`class A:` / `def f(self): Foo.bar()`. -/
theorem walk_facts_recorded_witness :
    ∃ mr, methodRecOf expC6w "A" "f" = some mr ∧
      (∀ s ∈ reachCalled (.call (.attribute "bar" (.name "Foo")) []), s ∈ mr.called) ∧
      (∀ s ∈ reachAccessed (.call (.attribute "bar" (.name "Foo")) []), s ∈ mr.accessed_attributes) :=
  walk_facts_recorded_in_method_record moduleC6w expC6w rfl
    "A" [] [ .funcDef "f" ["self"] [ .exprStmt (.call (.attribute "bar" (.name "Foo")) []) ] false ]
    (by simp [moduleC6w])
    "f" ["self"] [ .exprStmt (.call (.attribute "bar" (.name "Foo")) []) ] false
    (by simp)
    (.call (.attribute "bar" (.name "Foo")) [])
    (Or.inl (by simp))

/-- C1 (code_bug evidence): in a module defining `class A` (with method `f`)
and an unrelated `class B`, both registry keys point at the same shared
record — address 0, the `_CLASS_INIT` object — so `B`'s record reports `A`'s
method `f`; records are not fresh or independent. -/
theorem shared_class_record_leaks_across_classes :
    resC1.isOk = true ∧
    (resC1.toOption.bind fun st => pyLookup "A" st.classes) = some 0 ∧
    (resC1.toOption.bind fun st => pyLookup "B" st.classes) = some 0 ∧
    (resC1.toOption.bind fun st => (classRecOf st "B").map ClassRec.methods) =
      some [("f", 1)] :=
  ⟨rfl, rfl, rfl, rfl⟩

/-- C2 (code_bug evidence): extracting the syntactically valid module
`class A:` / `    foo()` raises `TypeError`, because `_extract_classes_data`
passes the astroid node itself as the `dict` argument of the recursive walk,
which then subscripts it. -/
theorem class_body_call_raises_type_error :
    extract_code_data moduleC2 =
      .error (.typeError "astroid node object is not subscriptable") := rfl

/-- Evaluation of the round-trip scenario module, step by step through the
extraction equations. -/
theorem resC3_eval : resC3 = .ok expC3 := by
  simp [resC3, moduleC3, expC3, extract_code_data, extract_classes_data, extractClassBody,
    extract_methods, extractMethodBody, extract_self_attributes, extract_used_attributes_recursive,
    extractUsedArgs, extractBases, extract_inheritance, classBodyVariables, count_lloc,
    llocChildren, count_lloc_in_compound_statement, simpleKind, compoundKind,
    methodDictSet, dictAddCalled, dictAddAccessed, classRecUpdate, updAssoc, setAdd, dictInsert,
    hasDot, dotPrefix, takeUntilDot, stripLeadingDot, initState, emptyClassRec, emptyMethodRec,
    Expr.as_string, asStringArgs, pyLookup, List.map, List.contains, Bind.bind, Except.bind]

/-- C3 counterexample: in the round-trip scenario, `UsedClass` is *not* in
`MyClass`'s `coupled_classes` and the key `UsedClassAttribute.used_attr` is
*not* in `my_method`'s `accessed_attributes`: the receiver text recorded is
the verbatim `self.UsedClassAttribute`, prefix included. -/
theorem roundtrip_claim_fails :
    resC3.isOk = true ∧
    (resC3.toOption.bind fun st => (classRecOf st "MyClass").map
        (fun r => r.coupled_classes.contains "UsedClass")) = some false ∧
    (resC3.toOption.bind fun st => (methodRecOf st "MyClass" "my_method").map
        (fun r => r.accessed_attributes.contains "UsedClassAttribute.used_attr")) = some false := by
  rw [resC3_eval]
  exact ⟨rfl, rfl, rfl⟩

/-- C3 as amended: the coupled-class entry recorded for `MyClass` is the
receiver's textual form `self.UsedClassAttribute` (so `coupled_classes` is
nonempty and CBO ≥ 1), and the qualified key recorded for `my_method` is
`self.UsedClassAttribute.used_attr`. -/
theorem roundtrip_amended :
    resC3.isOk = true ∧
    (resC3.toOption.bind fun st => (classRecOf st "MyClass").map
        (fun r => r.coupled_classes.contains "self.UsedClassAttribute")) = some true ∧
    (resC3.toOption.bind fun st => (classRecOf st "MyClass").map
        (fun r => r.coupled_classes.length)) = some 1 ∧
    (resC3.toOption.bind fun st => (methodRecOf st "MyClass" "my_method").map
        (fun r => r.accessed_attributes.contains "self.UsedClassAttribute.used_attr")) = some true := by
  rw [resC3_eval]
  exact ⟨rfl, rfl, rfl, rfl⟩

/-- C4 (code_bug evidence): for the chain MySuperParent ← MyParent ← MyClass
the inheritance map is recorded as claimed, but `direct_children` lives on the
one shared class record, which both increments hit: every class, `MyParent`
and `MySuperParent` included, reports `direct_children = 2`, not 1 and 1. -/
theorem inheritance_chain_shared_counter :
    resC4.isOk = true ∧
    (resC4.toOption.bind fun st => pyLookup "MyParent" st.inheritances) =
      some "MySuperParent" ∧
    (resC4.toOption.bind fun st => pyLookup "MyClass" st.inheritances) =
      some "MyParent" ∧
    (resC4.toOption.bind fun st => (classRecOf st "MyParent").map ClassRec.direct_children) =
      some 2 ∧
    (resC4.toOption.bind fun st => (classRecOf st "MySuperParent").map ClassRec.direct_children) =
      some 2 :=
  ⟨rfl, rfl, rfl, rfl, rfl⟩

/-- C5 (code_bug evidence): re-encountering class name `A` keeps the name a
single registry key, but the "new" record is the same shared object still
holding the old contents: after the second `class A` both the old method `f`
and the new method `g` are present — merge, not overwrite. -/
theorem duplicate_class_name_merges_not_overwrites :
    resC5.isOk = true ∧
    (resC5.toOption.map fun st => st.classes) = some [("A", 0)] ∧
    (resC5.toOption.bind fun st => (classRecOf st "A").map ClassRec.methods) =
      some [("f", 1), ("g", 1)] :=
  ⟨rfl, rfl, rfl⟩

/-- C6 counterexample: a call expression inside a `return` statement
(`return Foo.bar()`) is never visited — after extraction the method record's
`called` and `accessed_attributes` sets are both empty. -/
theorem call_in_return_not_recorded :
    resC6.isOk = true ∧
    (resC6.toOption.bind fun st => (methodRecOf st "A" "f").map MethodRec.called) =
      some [] ∧
    (resC6.toOption.bind fun st => (methodRecOf st "A" "f").map MethodRec.accessed_attributes) =
      some [] :=
  ⟨rfl, rfl, rfl⟩

/-- C7: on every function-definition node `count_lloc` computes exactly the
spec's recursive formula (1 per listed simple statement; compound = 1 for the
header + count of primary body + count of else body), and in particular the
method whose body is one conditional with two simple statements and a
one-statement else branch has LLOC 4. -/
theorem count_lloc_matches_spec_formula :
    (∀ (name : String) (args : List String) (body : List Stmt) (isAsync : Bool),
      count_lloc (.funcDef name args body isAsync) = .ok (llocSpecList body)) ∧
    count_lloc methodC7 = .ok 4 := by
  refine ⟨fun name args body isAsync => ?_, rfl⟩
  simp only [count_lloc, llocChildren_eq_spec body]

/-- C8: `count_lloc` fails fast — on every node that is not a
function/method definition it raises `ValueError` (never returns a value),
and on every function/method-definition node it returns without raising. -/
theorem count_lloc_fail_fast :
    (∀ s : Stmt, isFunctionDefNode s = false →
      count_lloc s = .error (.valueError "Node must be a function or method definition")) ∧
    (∀ (name : String) (args : List String) (body : List Stmt) (isAsync : Bool),
      ∃ n, count_lloc (.funcDef name args body isAsync) = .ok n) := by
  constructor
  · intro s h
    cases s <;> first | rfl | (exfalso; simp [isFunctionDefNode] at h)
  · intro name args body isAsync
    exact ⟨llocChildren body, rfl⟩

/-- C8 witness: instantiated at the `pass` statement and at a concrete
function definition. -/
theorem count_lloc_fail_fast_witness :
    count_lloc Stmt.passS =
      .error (.valueError "Node must be a function or method definition") ∧
    ∃ n, count_lloc (Stmt.funcDef "f" [] [] false) = .ok n :=
  ⟨count_lloc_fail_fast.1 Stmt.passS rfl, count_lloc_fail_fast.2 "f" [] [] false⟩

/-- C9: the attribute-access rule of the recursive walk, as invoked with the
method record as destination (the only destination on which recording
succeeds): a receiver whose text differs from `self` is added to the current
class's `coupled_classes` and the attribute is recorded under the qualified
key `receiver.attrname`; a literal `self` receiver records the bare name and
leaves every class record unchanged. -/
theorem attribute_access_rule (attrname : String) (e : Expr) (a ca : Nat)
    (class_name : String) (st : CodeParserState)
    (hc : pyLookup class_name st.classes = some ca) :
    (¬ e.as_string = "self" →
      extract_used_attributes_recursive (.attribute attrname e) (.methodRec a) class_name st =
        .ok { st with heap :=
              { classH := updAssoc st.heap.classH ca (addCoupled e.as_string),
                methodH := updAssoc st.heap.methodH a (addAccessedKey (e.as_string ++ "." ++ attrname)) } }) ∧
    (e.as_string = "self" →
      extract_used_attributes_recursive (.attribute attrname e) (.methodRec a) class_name st =
        .ok { st with heap :=
              { st.heap with methodH := updAssoc st.heap.methodH a (addAccessedKey attrname) } }) := by
  constructor
  · intro h
    simp [extract_used_attributes_recursive, h, classRecUpdate, hc, dictAddAccessed,
      methodDictSet, Bind.bind, Except.bind, addCoupled, addAccessedKey]
    exact ⟨rfl, rfl⟩
  · intro h
    simp [extract_used_attributes_recursive, h, dictAddAccessed, methodDictSet, addAccessedKey]
    rfl

/-- C9 witness: the rule applied to `B.x` in a state in which class `A` is
registered. -/
theorem attribute_access_rule_witness :
    extract_used_attributes_recursive (.attribute "x" (.name "B")) (.methodRec 1) "A" stWitness =
      .ok { classInitAddr := 0, methodInitAddr := 1, classes := [("A", 0)],
            inheritances := [],
            heap := { classH := [(0, { emptyClassRec with coupled_classes := ["B"] })],
                      methodH := [(1, { emptyMethodRec with accessed_attributes := ["B.x"] })] } } := by
  have h := (attribute_access_rule "x" (.name "B") 1 0 "A" stWitness rfl).1 (by decide)
  simpa [stWitness, initState, updAssoc, setAdd, emptyClassRec, emptyMethodRec] using h

/-- C10: in the LLOC count of a `try` statement only the header, the primary
body and the else body contribute; the except handlers and the `finally` body
contribute nothing, so replacing them never changes a method's LLOC. -/
theorem try_handlers_finally_not_counted :
    (∀ (b : List Stmt) (hs : List (List Stmt)) (o f : List Stmt),
      count_lloc_in_compound_statement (.tryS b hs o f) =
        1 + llocChildren b + llocChildren o) ∧
    (∀ (name : String) (args : List String) (pre post b o : List Stmt)
        (hs hs2 : List (List Stmt)) (f f2 : List Stmt) (isAsync : Bool),
      count_lloc (.funcDef name args (pre ++ .tryS b hs o f :: post) isAsync) =
        count_lloc (.funcDef name args (pre ++ .tryS b hs2 o f2 :: post) isAsync)) := by
  constructor
  · intro b hs o f
    simp [count_lloc_in_compound_statement]
  · intro name args pre post b o hs hs2 f f2 isAsync
    simp [count_lloc, llocChildren_append, llocChildren, simpleKind, compoundKind,
      count_lloc_in_compound_statement]

end PyCK
